import Mathlib

-- Verification of the Ant-Colony-Optimization solver engine (Go package ACO):
-- the colony data model, roulette-wheel sampling, tour construction and the
-- three pheromone-update strategies (Ant System, Max-Min Ant System, Ant
-- Colony System).  Go float64 arithmetic is modelled over the rationals, Go
-- slices as lists or total functions, and the process-wide random generator
-- as explicitly passed draw streams; a Go index-out-of-range panic is
-- modelled as the value none.

set_option maxHeartbeats 1000000

namespace ACO

-- Float64 matrices of the Go code (graph, weights, pheromones) are modelled
-- as total functions on index pairs with rational entries; every access the
-- code performs stays below the colony size.
abbrev Mat : Type := Nat → Nat → ℚ

/-- A single ant (Go struct ant): accumulated tour cost, path built so far and
the visited flags (the Go slice of booleans becomes a total function). -/
structure AntState where
  cost : ℚ
  path : List Nat
  visited : Nat → Bool

/-- Sum of the entries probabilities[0] + ... + probabilities[k]: the value the
accumulator c of simulateChoice holds while the variable node equals k. -/
def prefixSum (l : List ℚ) (k : Nat) : ℚ := (l.take (k + 1)).sum

/-- The advancing loop of simulateChoice (while c < u, advance node and add the
next probability).  Accessing past the end of the slice is a Go panic, returned
as none.  The fuel argument only makes the recursion structural; the caller
passes the slice length, which is never exhausted before one of the two Go
exits (loop test false, or out-of-range access) fires. -/
def scLoop (probs : List ℚ) (u : ℚ) : Nat → ℚ → Nat → Option Nat
  | 0, c, node => if c < u then none else some node
  | fuel + 1, c, node =>
    if c < u then
      match probs[node + 1]? with
      | none => none
      | some p => scLoop probs u fuel (c + p) (node + 1)
    else some node

/-- Body of simulateChoice (part_001 lines 102-112) once the uniform draw u is
fixed: node starts at 0, c at probabilities[0] (a panic if the vector is
empty), then the loop advances while c < u. -/
def simulateChoiceU (probs : List ℚ) (u : ℚ) : Option Nat :=
  match probs[0]? with
  | none => none
  | some c0 => scLoop probs u probs.length c0 0

/-- simulateChoice (part_001 lines 102-112): u is sum * rand.Float64(), with
the draw r in [0,1) passed explicitly. -/
def simulateChoice (probabilities : List ℚ) (sum : ℚ) (r : ℚ) : Option Nat :=
  simulateChoiceU probabilities (sum * r)

/-- updateBestPath (part_001 lines 115-126): fold over the ants; an ant
overwrites the stored best path and cost when its cost is strictly smaller
than the current best, or when the current best cost still holds the initial
sentinel 0. -/
def updateBestPath (ants : List AntState) (bestPath : List Nat) (bestCost : ℚ) :
    List Nat × ℚ :=
  match ants with
  | [] => (bestPath, bestCost)
  | a :: rest =>
    if a.cost < bestCost then updateBestPath rest a.path a.cost
    else if bestCost = 0 then updateBestPath rest a.path a.cost
    else updateBestPath rest bestPath bestCost

-- Pheromone matrix operations.  The evaporation loop of every variant scales
-- each entry inside the size range; the deposit loops add (or, for Ant Colony
-- System, blend) a value on the edges of one tour, the closing edge first,
-- then the consecutive edges path[i-1] -> path[i] for i = 1 .. size-1.

/-- Directed edges of a tour as the Go deposit loops enumerate them: the
closing edge (path[size-1], path[0]) first, then (path[i-1], path[i]) for
i = 1 .. size-1. -/
def tourEdges (size : Nat) (path : List Nat) : List (Nat × Nat) :=
  (path.getD (size - 1) 0, path.getD 0 0) ::
    (List.range' 1 (size - 1)).map (fun i => (path.getD (i - 1) 0, path.getD i 0))

/-- Add w to the single matrix entry (a, b). -/
def addAt (p : Mat) (a b : Nat) (w : ℚ) : Mat :=
  fun i j => if i = a ∧ j = b then p i j + w else p i j

/-- Deposit w on every edge of the list in order (the += loops of the Ant
System, Max-Min and Ant Colony System global updates). -/
def depositEdges (w : ℚ) (es : List (Nat × Nat)) (p : Mat) : Mat :=
  es.foldl (fun acc e => addAt acc e.1 e.2 w) p

/-- Evaporation loop shared by every variant: each entry of the size × size
pheromone matrix is scaled by (1 - rho). -/
def evaporate (size : Nat) (rho : ℚ) (p : Mat) : Mat :=
  fun i j => if i < size ∧ j < size then (1 - rho) * p i j else p i j

/-- updatePheromones of the Ant System colony (part_001 lines 310-326):
evaporate every entry, then deposit q / ant.cost along every ant's tour,
closing edge included; every ant contributes. -/
def updatePheromones (size : Nat) (rho q : ℚ) (ants : List AntState) (p : Mat) : Mat :=
  ants.foldl (fun acc a => depositEdges (q / a.cost) (tourEdges size a.path) acc)
    (evaporate size rho p)

/-- Clamp of scalePheromones, with the branch order of the Go code: values
above tauMax become tauMax, else values below tauMin become tauMin. -/
def clamp (tauMax tauMin x : ℚ) : ℚ :=
  if x > tauMax then tauMax else if x < tauMin then tauMin else x

/-- scalePheromones of mmasColony: clamp every entry of the size × size
pheromone matrix into [tauMin, tauMax]. -/
def scalePheromones (size : Nat) (tauMax tauMin : ℚ) (p : Mat) : Mat :=
  fun i j => if i < size ∧ j < size then clamp tauMax tauMin (p i j) else p i j

/-- updatePheromones of mmasColony: evaporate every entry, deposit
q / bestCost along the global-best tour only, then clamp via
scalePheromones. -/
def mmasUpdatePheromones (size : Nat) (rho q tauMax tauMin : ℚ)
    (bestPath : List Nat) (bestCost : ℚ) (p : Mat) : Mat :=
  scalePheromones size tauMax tauMin
    (depositEdges (q / bestCost) (tourEdges size bestPath) (evaporate size rho p))

/-- Blend the single matrix entry (a, b) toward tau0 with rate phi — one Go
statement pair of localUpdatePheromone. -/
def mixAt (p : Mat) (a b : Nat) (phi tau0 : ℚ) : Mat :=
  fun i j => if i = a ∧ j = b then (1 - phi) * p i j + phi * tau0 else p i j

/-- localUpdatePheromone of antColonySystem (ACS.go lines 51-59): immediately
after an ant finishes its tour, every traversed edge (closing edge first, then
the consecutive edges) is blended toward tau0 with rate phi. -/
def localUpdatePheromone (size : Nat) (phi tau0 : ℚ) (path : List Nat) (p : Mat) : Mat :=
  (tourEdges size path).foldl (fun acc e => mixAt acc e.1 e.2 phi tau0) p

/-- visitNode (part_001 lines 274-277): append the node to the path and mark
it visited. -/
def visitNode (a : AntState) (node : Nat) : AntState :=
  { a with path := a.path ++ [node],
           visited := fun j => if j = node then true else a.visited j }

/-- Selection weights computed by chooseNode (part_001 lines 280-294): an
unvisited node next gets pheromone[previous][next]^alfa *
weight[previous][next]^beta, a visited node keeps the zero the slice was
allocated with.  math.Pow on floats is modelled by the abstract argument rpow;
the only property used is that a positive base gives a positive power. -/
def chooseProbs (rpow : ℚ → ℚ → ℚ) (alfa beta : ℚ) (size : Nat) (pher w : Mat)
    (a : AntState) : List ℚ :=
  (List.range size).map (fun next =>
    if a.visited next then 0
    else rpow (pher (a.path.getLastD 0) next) alfa * rpow (w (a.path.getLastD 0) next) beta)

/-- chooseNode of the colony (part_001 lines 280-294), used by Ant System and
Max-Min Ant System: roulette-wheel sampling over the selection weights; the
incremental Go accumulator sum equals the list sum because visited entries are
zero. -/
def chooseNode (rpow : ℚ → ℚ → ℚ) (alfa beta : ℚ) (size : Nat) (pher w : Mat)
    (a : AntState) (r : ℚ) : Option Nat :=
  simulateChoice (chooseProbs rpow alfa beta size pher w a)
    (chooseProbs rpow alfa beta size pher w a).sum r

/-- One construction step of antSimulation: visit the chosen node and add the
cost of the traversed edge (path[len-2], path[len-1]), whose source is the old
last node. -/
def stepAnt (g : Mat) (a : AntState) (nxt : Nat) : AntState :=
  { visitNode a nxt with cost := a.cost + g (a.path.getLastD 0) nxt }

/-- Cost of the consecutive edges of a path (the running total accumulated by
antSimulation before the closing edge). -/
def pathCost (g : Mat) : List Nat → ℚ
  | [] => 0
  | [_] => 0
  | x :: y :: t => g x y + pathCost g (y :: t)

/-- Loop of antSimulation (part_001 lines 264-271) after the start node: fuel
counts the remaining iterations of for i := 1; i < size; i++, and rs i is the
uniform draw consumed by the i-th chooseNode call; after the loop the closing
edge cost is added. -/
def antSimLoop (rpow : ℚ → ℚ → ℚ) (g pher w : Mat) (alfa beta : ℚ) (size : Nat)
    (rs : Nat → ℚ) : Nat → Nat → AntState → Option AntState
  | 0, _, a => some { a with cost := a.cost + g (a.path.getLastD 0) (a.path.headD 0) }
  | fuel + 1, i, a =>
    match chooseNode rpow alfa beta size pher w a (rs i) with
    | none => none
    | some nxt => antSimLoop rpow g pher w alfa beta size rs fuel (i + 1) (stepAnt g a nxt)

/-- antSimulation (part_001 lines 264-271): visit the uniformly drawn start
node, run size - 1 choose/visit steps, then add the closing edge cost. -/
def antSimulation (rpow : ℚ → ℚ → ℚ) (g pher w : Mat) (alfa beta : ℚ)
    (size : Nat) (start : Nat) (rs : Nat → ℚ) : Option AntState :=
  antSimLoop rpow g pher w alfa beta size rs (size - 1) 0
    (visitNode ⟨0, [], fun _ => false⟩ start)

/-- Loop of exploitPheromones (ACS.go lines 107-120) over the slice indices:
each index i draws its own q = rand.Float64() (modelled rnd i), the entry is
divided by sum, and when q < q0 the running newSum is overwritten with
pMax - probabilities[i] (the divided value) and the entry is overwritten with
pMax.  Only the last triggering index determines the returned newSum, which
starts at the zero value of var newSum float64. -/
def exploitGo (q0 pMax sum : ℚ) (rnd : Nat → ℚ) :
    List Nat → List ℚ × ℚ → List ℚ × ℚ
  | [], st => st
  | i :: rest, st =>
    if rnd i < q0 then
      exploitGo q0 pMax sum rnd rest (st.1.set i pMax, pMax - st.1.getD i 0 / sum)
    else
      exploitGo q0 pMax sum rnd rest (st.1.set i (st.1.getD i 0 / sum), st.2)

/-- exploitPheromones of antColonySystem (ACS.go lines 107-120). -/
def exploitPheromones (q0 pMax sum : ℚ) (rnd : Nat → ℚ) (probs : List ℚ) :
    List ℚ × ℚ :=
  exploitGo q0 pMax sum rnd (List.range probs.length) (probs, 0)

/-- chooseNode of antColonySystem (ACS.go lines 81-104): compute the selection
weights, their sum, and their maximum pMax (the Go loop keeps the maximum over
unvisited entries starting from 0.0, which equals the fold of max over the
whole weight list since visited entries are 0), transform the weights through
exploitPheromones, then sample with simulateChoice over the returned list and
newSum. -/
def acsChooseNode (rpow : ℚ → ℚ → ℚ) (alfa beta q0 : ℚ) (size : Nat)
    (pher w : Mat) (a : AntState) (rndE : Nat → ℚ) (rU : ℚ) : Option Nat :=
  simulateChoice
    (exploitPheromones q0 ((chooseProbs rpow alfa beta size pher w a).foldl max 0)
      (chooseProbs rpow alfa beta size pher w a).sum rndE
      (chooseProbs rpow alfa beta size pher w a)).1
    (exploitPheromones q0 ((chooseProbs rpow alfa beta size pher w a).foldl max 0)
      (chooseProbs rpow alfa beta size pher w a).sum rndE
      (chooseProbs rpow alfa beta size pher w a)).2
    rU

/-- State the generation loop of every solve entrypoint mutates: the pheromone
matrix and the best path/cost found so far (graph, weights and parameters are
immutable for the run). -/
structure ColonyState where
  pheromones : Mat
  bestPath : List Nat
  bestCost : ℚ

/-- Collect a list of fallible results; a single Go panic fails the run. -/
def seqOpt {α : Type} : List (Option α) → Option (List α)
  | [] => some []
  | none :: _ => none
  | some x :: rest =>
    match seqOpt rest with
    | none => none
    | some l => some (x :: l)

/-- constructAntSolutions of the colony (Ant System and Max-Min): reset the
ants and run antSimulation once per ant.  starts gen a models the
rand.Intn(size) draw of ant a in the given generation, draws gen a i its i-th
rand.Float64() draw. -/
def constructAntSolutions (rpow : ℚ → ℚ → ℚ) (g pher w : Mat) (alfa beta : ℚ)
    (size m gen : Nat) (starts : Nat → Nat → Nat) (draws : Nat → Nat → Nat → ℚ) :
    Option (List AntState) :=
  seqOpt ((List.range m).map (fun a =>
    antSimulation rpow g pher w alfa beta size (starts gen a) (fun i => draws gen a i)))

/-- One generation of SolveATSP / SolveAS: constructAntSolutions, then
updateBestPath, then the Ant System updatePheromones. -/
def asGenStep (rpow : ℚ → ℚ → ℚ) (g w : Mat) (alfa beta rho q : ℚ)
    (size m : Nat) (starts : Nat → Nat → Nat) (draws : Nat → Nat → Nat → ℚ)
    (gen : Nat) (st : ColonyState) : Option ColonyState :=
  match constructAntSolutions rpow g st.pheromones w alfa beta size m gen starts draws with
  | none => none
  | some ants =>
    some ⟨updatePheromones size rho q ants st.pheromones,
      (updateBestPath ants st.bestPath st.bestCost).1,
      (updateBestPath ants st.bestPath st.bestCost).2⟩

/-- The for gen loop shared by the three solve entrypoints. -/
def solveLoop (step : Nat → ColonyState → Option ColonyState) :
    Nat → Nat → ColonyState → Option ColonyState
  | 0, _, st => some st
  | n + 1, gi, st =>
    match step gi st with
    | none => none
    | some st2 => solveLoop step n (gi + 1) st2

/-- configurateSolver of the Ant System colony: pheromones start at 1.0, the
best path is make([]int, size) (all zeros) and the best cost 0. -/
def initColonyAS (size : Nat) : ColonyState :=
  ⟨fun _ _ => 1, List.replicate size 0, 0⟩

/-- Desirability matrix of generateMatrices for Ant System: 1 / graph[i][j]. -/
def weightsAS (g : Mat) : Mat := fun i j => 1 / g i j

/-- SolveATSP (part_001 lines 240-253), identical to SolveAS: configure the
colony, run the generation loop, return the best cost and path. -/
def SolveATSP (g : Mat) (size : Nat) (alfa beta rho q : ℚ) (m iterations : Nat)
    (rpow : ℚ → ℚ → ℚ) (starts : Nat → Nat → Nat) (draws : Nat → Nat → Nat → ℚ) :
    Option (ℚ × List Nat) :=
  (solveLoop (asGenStep rpow g (weightsAS g) alfa beta rho q size m starts draws)
      iterations 0 (initColonyAS size)).map (fun st => (st.bestCost, st.bestPath))

/-- One generation of SolveMMAS: constructAntSolutions (shared with Ant
System), updateBestPath, then the Max-Min update, which reads the freshly
updated best path and cost. -/
def mmasGenStep (rpow : ℚ → ℚ → ℚ) (g w : Mat) (alfa beta rho q tauMax tauMin : ℚ)
    (size m : Nat) (starts : Nat → Nat → Nat) (draws : Nat → Nat → Nat → ℚ)
    (gen : Nat) (st : ColonyState) : Option ColonyState :=
  match constructAntSolutions rpow g st.pheromones w alfa beta size m gen starts draws with
  | none => none
  | some ants =>
    some ⟨mmasUpdatePheromones size rho q tauMax tauMin
        (updateBestPath ants st.bestPath st.bestCost).1
        (updateBestPath ants st.bestPath st.bestCost).2 st.pheromones,
      (updateBestPath ants st.bestPath st.bestCost).1,
      (updateBestPath ants st.bestPath st.bestCost).2⟩

/-- configurateSolver of mmasColony: pheromones start at tauMax. -/
def initColonyMMAS (size : Nat) (tauMax : ℚ) : ColonyState :=
  ⟨fun _ _ => tauMax, List.replicate size 0, 0⟩

/-- Desirability matrix of generateMatrices for Max-Min: tauMax / graph. -/
def weightsMMAS (g : Mat) (tauMax : ℚ) : Mat := fun i j => tauMax / g i j

/-- SolveMMAS (README.md lines 172-186). -/
def SolveMMAS (g : Mat) (size : Nat) (alfa beta rho q : ℚ) (m : Nat)
    (tauMax tauMin : ℚ) (iterations : Nat) (rpow : ℚ → ℚ → ℚ)
    (starts : Nat → Nat → Nat) (draws : Nat → Nat → Nat → ℚ) :
    Option (ℚ × List Nat) :=
  (solveLoop (mmasGenStep rpow g (weightsMMAS g tauMax) alfa beta rho q tauMax tauMin
      size m starts draws) iterations 0 (initColonyMMAS size tauMax)).map
    (fun st => (st.bestCost, st.bestPath))

/-- Loop of the Ant Colony System antSimulation (ACS.go lines 71-78): like the
colony loop but choosing through acsChooseNode, which consumes one draw per
index (rsE i) plus the roulette draw (rsU i) at step i. -/
def acsAntSimLoop (rpow : ℚ → ℚ → ℚ) (g pher w : Mat) (alfa beta q0 : ℚ)
    (size : Nat) (rsE : Nat → Nat → ℚ) (rsU : Nat → ℚ) :
    Nat → Nat → AntState → Option AntState
  | 0, _, a => some { a with cost := a.cost + g (a.path.getLastD 0) (a.path.headD 0) }
  | fuel + 1, i, a =>
    match acsChooseNode rpow alfa beta q0 size pher w a (rsE i) (rsU i) with
    | none => none
    | some nxt =>
      acsAntSimLoop rpow g pher w alfa beta q0 size rsE rsU fuel (i + 1) (stepAnt g a nxt)

/-- antSimulation of antColonySystem (ACS.go lines 71-78). -/
def acsAntSimulation (rpow : ℚ → ℚ → ℚ) (g pher w : Mat) (alfa beta q0 : ℚ)
    (size start : Nat) (rsE : Nat → Nat → ℚ) (rsU : Nat → ℚ) : Option AntState :=
  acsAntSimLoop rpow g pher w alfa beta q0 size rsE rsU (size - 1) 0
    (visitNode ⟨0, [], fun _ => false⟩ start)

/-- constructAntSolutions of antColonySystem (ACS.go lines 62-68): the ants
run in order, and each ant's completed tour is immediately given to
localUpdatePheromone, mutating the pheromone matrix the next ant reads. -/
def acsConstruct (rpow : ℚ → ℚ → ℚ) (g w : Mat) (alfa beta q0 phi tau0 : ℚ)
    (size : Nat) (startOf : Nat → Nat) (rsEOf : Nat → Nat → Nat → ℚ)
    (rsUOf : Nat → Nat → ℚ) : List Nat → Mat → Option (Mat × List AntState)
  | [], pher => some (pher, [])
  | a :: rest, pher =>
    match acsAntSimulation rpow g pher w alfa beta q0 size (startOf a)
        (rsEOf a) (rsUOf a) with
    | none => none
    | some b =>
      match acsConstruct rpow g w alfa beta q0 phi tau0 size startOf rsEOf rsUOf
          rest (localUpdatePheromone size phi tau0 b.path pher) with
      | none => none
      | some pr => some (pr.1, b :: pr.2)

/-- Global pheromone update of antColonySystem (ACS.go lines 34-48): evaporate
and deposit q / bestCost along the global-best tour only, without clamping. -/
def acsUpdatePheromones (size : Nat) (rho q : ℚ) (bestPath : List Nat)
    (bestCost : ℚ) (p : Mat) : Mat :=
  depositEdges (q / bestCost) (tourEdges size bestPath) (evaporate size rho p)

/-- One generation of SolveACS: construct with local updates, updateBestPath,
then the global update reading the freshly updated best. -/
def acsGenStep (rpow : ℚ → ℚ → ℚ) (g w : Mat) (alfa beta rho q tau0 phi q0 : ℚ)
    (size m : Nat) (starts : Nat → Nat → Nat) (drawsE : Nat → Nat → Nat → Nat → ℚ)
    (drawsU : Nat → Nat → Nat → ℚ) (gen : Nat) (st : ColonyState) :
    Option ColonyState :=
  match acsConstruct rpow g w alfa beta q0 phi tau0 size (starts gen)
      (drawsE gen) (drawsU gen) (List.range m) st.pheromones with
  | none => none
  | some pr =>
    some ⟨acsUpdatePheromones size rho q
        (updateBestPath pr.2 st.bestPath st.bestCost).1
        (updateBestPath pr.2 st.bestPath st.bestCost).2 pr.1,
      (updateBestPath pr.2 st.bestPath st.bestCost).1,
      (updateBestPath pr.2 st.bestPath st.bestCost).2⟩

/-- configurateSolver of antColonySystem: pheromones start at tau0. -/
def initColonyACS (size : Nat) (tau0 : ℚ) : ColonyState :=
  ⟨fun _ _ => tau0, List.replicate size 0, 0⟩

/-- Desirability matrix of generateMatrices for Ant Colony System:
tau0 / graph. -/
def weightsACS (g : Mat) (tau0 : ℚ) : Mat := fun i j => tau0 / g i j

/-- SolveACS (ACS.go lines 17-31). -/
def SolveACS (g : Mat) (size : Nat) (alfa beta rho q : ℚ) (m : Nat)
    (tau0 phi q0 : ℚ) (iterations : Nat) (rpow : ℚ → ℚ → ℚ)
    (starts : Nat → Nat → Nat) (drawsE : Nat → Nat → Nat → Nat → ℚ)
    (drawsU : Nat → Nat → Nat → ℚ) : Option (ℚ × List Nat) :=
  (solveLoop (acsGenStep rpow g (weightsACS g tau0) alfa beta rho q tau0 phi q0
      size m starts drawsE drawsU) iterations 0 (initColonyACS size tau0)).map
    (fun st => (st.bestCost, st.bestPath))

/-- The best cost of the generation loop is non-increasing from the first
generation on: after k+1 generations the state exists, its best cost is
strictly positive, and one more generation does not increase it. -/
def monotoneFromFirstGen (step : Nat → ColonyState → Option ColonyState)
    (init : ColonyState) : Prop :=
  ∀ k, ∃ st st2, solveLoop step (k + 1) 0 init = some st ∧
    solveLoop step (k + 2) 0 init = some st2 ∧
    st2.bestCost ≤ st.bestCost ∧ 0 < st.bestCost ∧ 0 < st2.bestCost

/-- Colony invariant shared by the three variants: pheromone entries positive
in range, best cost nonnegative. -/
def InvP (size : Nat) (st : ColonyState) : Prop :=
  (∀ i j, i < size → j < size → 0 < st.pheromones i j) ∧ 0 ≤ st.bestCost

-- Lemmas and claim theorems.

lemma prefixSum_zero (l : List ℚ) : prefixSum l 0 = l.getD 0 0 := by
  cases l <;> simp [prefixSum]

lemma prefixSum_of_length_le (l : List ℚ) (k : Nat) (h : l.length ≤ k + 1) :
    prefixSum l k = l.sum := by
  unfold prefixSum
  rw [List.take_of_length_le h]

lemma prefixSum_succ (l : List ℚ) (k : Nat) :
    prefixSum l (k + 1) = prefixSum l k + l.getD (k + 1) 0 := by
  by_cases h : k + 1 < l.length
  · unfold prefixSum
    rw [List.sum_take_succ l (k + 1) h, List.getD_eq_getElem l 0 h]
  · push_neg at h
    rw [prefixSum_of_length_le l (k + 1) (le_trans h (Nat.le_succ _)),
      prefixSum_of_length_le l k h, List.getD_eq_default _ _ h, add_zero]

lemma getD_nonneg (l : List ℚ) (hn : ∀ p ∈ l, 0 ≤ p) (n : Nat) : 0 ≤ l.getD n 0 := by
  by_cases h : n < l.length
  · rw [List.getD_eq_getElem _ _ h]
    exact hn _ (List.getElem_mem h)
  · rw [List.getD_eq_default _ _ (le_of_not_lt h)]

lemma prefixSum_mono (l : List ℚ) (hn : ∀ p ∈ l, 0 ≤ p) :
    ∀ {j k : Nat}, j ≤ k → prefixSum l j ≤ prefixSum l k := by
  intro j k hjk
  induction k with
  | zero =>
    rw [Nat.le_zero.mp hjk]
  | succ k ih =>
    rcases Nat.lt_or_ge j (k + 1) with h | h
    · calc prefixSum l j ≤ prefixSum l k := ih (Nat.lt_succ_iff.mp h)
        _ ≤ prefixSum l (k + 1) := by
            rw [prefixSum_succ]
            exact le_add_of_nonneg_right (getD_nonneg l hn _)
    · rw [le_antisymm hjk h]

lemma scLoop_spec (probs : List ℚ) (u : ℚ) (hn : ∀ p ∈ probs, 0 ≤ p)
    (hu : u ≤ probs.sum) :
    ∀ fuel node, node < probs.length → probs.length ≤ fuel + node + 1 →
    ∃ k, scLoop probs u fuel (prefixSum probs node) node = some k ∧
      node ≤ k ∧ k < probs.length ∧ u ≤ prefixSum probs k ∧
      ∀ j, node ≤ j → j < k → prefixSum probs j < u := by
  intro fuel
  induction fuel with
  | zero =>
    intro node h1 h2
    have hps : prefixSum probs node = probs.sum :=
      prefixSum_of_length_le _ _ (by omega)
    have hnlt : ¬ prefixSum probs node < u := not_lt.mpr (hps ▸ hu)
    refine ⟨node, ?_, le_refl _, h1, hps ▸ hu, fun j hj1 hj2 => absurd (lt_of_le_of_lt hj1 hj2) (lt_irrefl _)⟩
    rw [scLoop, if_neg hnlt]
  | succ fuel ih =>
    intro node h1 h2
    by_cases hc : prefixSum probs node < u
    · have hlt : node + 1 < probs.length := by
        rcases Nat.lt_or_ge (node + 1) probs.length with h | h
        · exact h
        · exact absurd (lt_of_lt_of_le hc (hu.trans (le_of_eq (prefixSum_of_length_le _ _ (by omega)).symm)))
            (lt_irrefl _)
      have hget : probs[node + 1]? = some probs[node + 1] :=
        List.getElem?_eq_some_iff.mpr ⟨hlt, rfl⟩
      have hpeq : prefixSum probs node + probs[node + 1] = prefixSum probs (node + 1) := by
        rw [prefixSum_succ, List.getD_eq_getElem _ _ hlt]
      have hunf : scLoop probs u (fuel + 1) (prefixSum probs node) node =
          scLoop probs u fuel (prefixSum probs (node + 1)) (node + 1) := by
        rw [scLoop, if_pos hc, hget]
        show scLoop probs u fuel (prefixSum probs node + probs[node + 1]) (node + 1) = _
        rw [hpeq]
      obtain ⟨k, hk, hk1, hk2, hk3, hk4⟩ := ih (node + 1) hlt (by omega)
      refine ⟨k, by rw [hunf]; exact hk, le_trans (Nat.le_succ _) hk1, hk2, hk3, ?_⟩
      intro j hj1 hj2
      rcases Nat.lt_or_ge j (node + 1) with h | h
      · have hjn : j = node := le_antisymm (Nat.lt_succ_iff.mp h) hj1
        rw [hjn]
        exact hc
      · exact hk4 j h hj2
    · exact ⟨node, by rw [scLoop, if_neg hc], le_refl _, h1, not_lt.mp hc,
        fun j hj1 hj2 => absurd (lt_of_le_of_lt hj1 hj2) (lt_irrefl _)⟩

lemma simulateChoiceU_spec (probs : List ℚ) (u : ℚ) (hne : probs ≠ [])
    (hn : ∀ p ∈ probs, 0 ≤ p) (hu : u ≤ probs.sum) :
    ∃ k, simulateChoiceU probs u = some k ∧ k < probs.length ∧
      u ≤ prefixSum probs k ∧ ∀ j < k, prefixSum probs j < u := by
  have hlen : 0 < probs.length := List.length_pos.mpr hne
  have h0 : probs[0]? = some probs[0] := List.getElem?_eq_some_iff.mpr ⟨hlen, rfl⟩
  have hc0 : probs[0] = prefixSum probs 0 := by
    rw [prefixSum_zero, List.getD_eq_getElem _ _ hlen]
  obtain ⟨k, hk, hk1, hk2, hk3, hk4⟩ := scLoop_spec probs u hn hu probs.length 0 hlen (by omega)
  refine ⟨k, ?_, hk2, hk3, fun j hj => hk4 j (Nat.zero_le _) hj⟩
  unfold simulateChoiceU
  rw [h0, hc0]
  exact hk

/-- Claim C3 counterexample: on the nonnegative weight vector [0, 1] with sum
1 and the uniform draw u = 0 (r = 0, allowed since rand.Float64() ranges over
[0,1)), simulateChoice returns index 0, whose prefix sum 0 does not strictly
exceed u; the smallest index whose prefix sum strictly exceeds u is 1. -/
theorem simulateChoice_not_first_strict :
    simulateChoice [0, 1] 1 0 = some 0 ∧ ¬ (0 : ℚ) < prefixSum [0, 1] 0 ∧
      (0 : ℚ) < prefixSum [0, 1] 1 := by
  refine ⟨?_, by norm_num [prefixSum], by norm_num [prefixSum]⟩
  have h1 : (1 : ℚ) * 0 = 0 := mul_zero 1
  show simulateChoiceU [0, 1] (1 * 0) = some 0
  rw [h1]
  show scLoop [0, 1] 0 2 0 0 = some 0
  rw [scLoop, if_neg (lt_irrefl (0 : ℚ))]

/-- Claim C3 (amended): for every vector of nonnegative weights, sum argument S
with 0 < S ≤ total, and draw r in [0,1) (so u = S * r), simulateChoice returns
the smallest index k whose prefix sum weights[0] + ... + weights[k] reaches u,
that is prefix(k) ≥ u while prefix(j) < u for every j < k (ties broken by index
order); in particular, for weights [1,0,0,0] with sum 1 it returns index 0 for
every such draw. -/
theorem simulateChoice_first_reaching (probs : List ℚ) (S r : ℚ)
    (hne : probs ≠ []) (hn : ∀ p ∈ probs, 0 ≤ p) (hS : 0 < S)
    (hSle : S ≤ probs.sum) (hr0 : 0 ≤ r) (hr1 : r < 1) :
    (∃ k, simulateChoice probs S r = some k ∧ S * r ≤ prefixSum probs k ∧
      ∀ j < k, prefixSum probs j < S * r) ∧
    simulateChoice [1, 0, 0, 0] 1 r = some 0 := by
  constructor
  · have hu : S * r ≤ probs.sum :=
      le_trans (le_of_lt (mul_lt_of_lt_one_right hS hr1)) hSle
    obtain ⟨k, hk, _, hk3, hk4⟩ := simulateChoiceU_spec probs (S * r) hne hn hu
    exact ⟨k, hk, hk3, hk4⟩
  · have hnr : ¬ (1 : ℚ) < 1 * r := by
      rw [one_mul]
      exact not_lt.mpr (le_of_lt hr1)
    show simulateChoiceU [1, 0, 0, 0] (1 * r) = some 0
    show scLoop [1, 0, 0, 0] (1 * r) 4 1 0 = some 0
    rw [scLoop, if_neg hnr]

/-- Claim C3 witness: the amended characterization instantiated on the weight
vector [1,0,0,0] with sum 1 and draw r = 1/2. -/
theorem simulateChoice_first_reaching_witness :
    (∃ k, simulateChoice [1, 0, 0, 0] 1 (1/2) = some k ∧
        1 * (1/2 : ℚ) ≤ prefixSum [1, 0, 0, 0] k ∧
        ∀ j < k, prefixSum [1, 0, 0, 0] j < 1 * (1/2 : ℚ)) ∧
      simulateChoice [1, 0, 0, 0] 1 (1/2) = some 0 :=
  simulateChoice_first_reaching [1, 0, 0, 0] 1 (1/2) (by decide)
    (by decide) (by norm_num) (by norm_num [List.sum_cons]) (by norm_num) (by norm_num)

/-- Claim C10: for every nonempty vector of nonnegative weights, caller-supplied
sum S with 0 < S ≤ total sum, and draw r in [0,1) giving u = S * r, the
index-advancing loop of simulateChoice stops at an index strictly below the
vector length; every slice access is in bounds (the embedding returns none
exactly when the Go code would access out of range). -/
theorem simulateChoice_in_bounds (probs : List ℚ) (S r : ℚ)
    (hne : probs ≠ []) (hn : ∀ p ∈ probs, 0 ≤ p) (hS : 0 < S)
    (hSle : S ≤ probs.sum) (hr0 : 0 ≤ r) (hr1 : r < 1) :
    ∃ k, simulateChoice probs S r = some k ∧ k < probs.length := by
  have hu : S * r ≤ probs.sum :=
    le_trans (le_of_lt (mul_lt_of_lt_one_right hS hr1)) hSle
  obtain ⟨k, hk, hk2, _, _⟩ := simulateChoiceU_spec probs (S * r) hne hn hu
  exact ⟨k, hk, hk2⟩

/-- Claim C10 witness: in-bounds termination on the weight vector [2,3] with
sum 4 (smaller than the true total 5 is not needed: 4 ≤ 5) and draw 3/4. -/
theorem simulateChoice_in_bounds_witness :
    ∃ k, simulateChoice [2, 3] 4 (3/4) = some k ∧ k < ([2, 3] : List ℚ).length :=
  simulateChoice_in_bounds [2, 3] 4 (3/4) (by decide) (by decide)
    (by norm_num) (by norm_num [List.sum_cons]) (by norm_num) (by norm_num)

lemma updateBestPath_mono (ants : List AntState) :
    ∀ bp bc, (∀ a ∈ ants, 0 < a.cost) → 0 < bc →
    (updateBestPath ants bp bc).2 ≤ bc ∧ 0 < (updateBestPath ants bp bc).2 := by
  induction ants with
  | nil => exact fun bp bc _ hbc => ⟨le_refl _, hbc⟩
  | cons a t ih =>
    intro bp bc hpos hbc
    have ha : 0 < a.cost := hpos a (List.mem_cons_self a t)
    have ht : ∀ x ∈ t, 0 < x.cost := fun x hx => hpos x (List.mem_cons_of_mem a hx)
    by_cases hlt : a.cost < bc
    · rw [updateBestPath, if_pos hlt]
      obtain ⟨h1, h2⟩ := ih a.path a.cost ht ha
      exact ⟨le_trans h1 (le_of_lt hlt), h2⟩
    · rw [updateBestPath, if_neg hlt, if_neg (ne_of_gt hbc)]
      exact ih bp bc ht hbc

lemma updateBestPath_unchanged (ants : List AntState) :
    ∀ bp bc, 0 < bc → (∀ a ∈ ants, bc ≤ a.cost) →
    updateBestPath ants bp bc = (bp, bc) := by
  induction ants with
  | nil => exact fun bp bc _ _ => rfl
  | cons a t ih =>
    intro bp bc hbc hle
    have ha : ¬ a.cost < bc := not_lt.mpr (hle a (List.mem_cons_self a t))
    rw [updateBestPath, if_neg ha, if_neg (ne_of_gt hbc)]
    exact ih bp bc hbc (fun x hx => hle x (List.mem_cons_of_mem a hx))

lemma updateBestPath_pos_of_sentinel (ants : List AntState) (hne : ants ≠ [])
    (bp : List Nat) (hpos : ∀ a ∈ ants, 0 < a.cost) :
    0 < (updateBestPath ants bp 0).2 := by
  match ants with
  | [] => exact absurd rfl hne
  | a :: t =>
    have ha : 0 < a.cost := hpos a (List.mem_cons_self a t)
    have ht : ∀ x ∈ t, 0 < x.cost := fun x hx => hpos x (List.mem_cons_of_mem a hx)
    rw [updateBestPath, if_neg (not_lt.mpr (le_of_lt ha)), if_pos rfl]
    exact (updateBestPath_mono t a.path a.cost ht ha).2

lemma updateBestPath_pos (ants : List AntState) (bp : List Nat) (bc : ℚ)
    (hpos : ∀ a ∈ ants, 0 < a.cost) (hbc : 0 ≤ bc) (h : 0 < bc ∨ ants ≠ []) :
    0 < (updateBestPath ants bp bc).2 := by
  rcases h with h | h
  · exact (updateBestPath_mono ants bp bc hpos h).2
  · rcases lt_or_eq_of_le hbc with hlt | heq
    · exact (updateBestPath_mono ants bp bc hpos hlt).2
    · rw [← heq]
      exact updateBestPath_pos_of_sentinel ants h bp hpos

lemma addAt_apply (p : Mat) (a b : Nat) (w : ℚ) (i j : Nat) :
    addAt p a b w i j = p i j + (if (a, b) = (i, j) then w else 0) := by
  unfold addAt
  by_cases h : i = a ∧ j = b
  · obtain ⟨h1, h2⟩ := h
    rw [if_pos ⟨h1, h2⟩, if_pos (by rw [h1, h2])]
  · rw [if_neg h, if_neg, add_zero]
    intro hc
    exact h ⟨(congrArg Prod.fst hc).symm, (congrArg Prod.snd hc).symm⟩

lemma depositEdges_apply (w : ℚ) (es : List (Nat × Nat)) :
    ∀ (p : Mat) (i j : Nat),
    depositEdges w es p i j = p i j + w * (es.count (i, j) : ℚ) := by
  induction es with
  | nil => intro p i j; simp [depositEdges]
  | cons e t ih =>
    intro p i j
    have hstep : depositEdges w (e :: t) p = depositEdges w t (addAt p e.1 e.2 w) := rfl
    rw [hstep, ih, addAt_apply]
    have hcount : ((e :: t).count (i, j) : ℚ) =
        (t.count (i, j) : ℚ) + (if e = (i, j) then 1 else 0) := by
      rw [List.count_cons]
      by_cases h : e = (i, j)
      · simp [h]
      · simp [h]
    have he : (e.1, e.2) = e := rfl
    rw [hcount, he]
    by_cases h : e = (i, j)
    · rw [if_pos h, if_pos h]
      ring
    · rw [if_neg h, if_neg h]
      ring

/-- Entrywise description of the Ant System pheromone update, inside the
size range. -/
lemma updatePheromones_apply (size : Nat) (rho q : ℚ) (ants : List AntState) :
    ∀ (p : Mat) (i j : Nat), i < size → j < size →
    updatePheromones size rho q ants p i j =
      (1 - rho) * p i j +
        (ants.map (fun a => (q / a.cost) * ((tourEdges size a.path).count (i, j) : ℚ))).sum := by
  have haux : ∀ (l : List AntState) (base : Mat) (i j : Nat),
      l.foldl (fun acc a => depositEdges (q / a.cost) (tourEdges size a.path) acc) base i j =
        base i j + (l.map (fun a => (q / a.cost) * ((tourEdges size a.path).count (i, j) : ℚ))).sum := by
    intro l
    induction l with
    | nil => intro base i j; simp
    | cons a t ih =>
      intro base i j
      have hstep : (a :: t).foldl (fun acc x => depositEdges (q / x.cost) (tourEdges size x.path) acc) base =
          t.foldl (fun acc x => depositEdges (q / x.cost) (tourEdges size x.path) acc)
            (depositEdges (q / a.cost) (tourEdges size a.path) base) := rfl
      rw [hstep, ih, depositEdges_apply]
      simp [add_assoc]
  intro p i j hi hj
  unfold updatePheromones
  rw [haux, evaporate]
  rw [if_pos ⟨hi, hj⟩]

/-- Claim C4: the Ant System pheromone update (colony.updatePheromones) first
multiplies every entry of the N×N pheromone matrix by (1 - rho) and then, for
every ant of the population, adds q / ant.cost to pheromone[i][j] once per
occurrence of the directed edge (i, j) on that ant's tour, the closing edge
from the tour's last node back to its first node included; every ant
contributes a deposit term. -/
theorem updatePheromones_AS_spec (size : Nat) (rho q : ℚ) (ants : List AntState)
    (p : Mat) (i j : Nat) (hi : i < size) (hj : j < size) :
    updatePheromones size rho q ants p i j =
      (1 - rho) * p i j +
        (ants.map (fun a => (q / a.cost) * ((tourEdges size a.path).count (i, j) : ℚ))).sum :=
  updatePheromones_apply size rho q ants p i j hi hj

/-- Claim C4 witness: the update evaluated on a 2-node colony with one ant of
cost 2 on tour [0, 1], rho = 1/2, q = 1 and all-ones pheromone matrix, at
entry (0, 1). -/
theorem updatePheromones_AS_spec_witness :
    updatePheromones 2 (1/2) 1 [⟨2, [0, 1], fun _ => true⟩] (fun _ _ => 1) 0 1 =
      (1 - 1/2) * 1 +
        (([⟨2, [0, 1], fun _ => true⟩] : List AntState).map
          (fun a => ((1:ℚ) / a.cost) * ((tourEdges 2 a.path).count (0, 1) : ℚ))).sum :=
  updatePheromones_AS_spec 2 (1/2) 1 [⟨2, [0, 1], fun _ => true⟩] (fun _ _ => 1) 0 1
    (by norm_num) (by norm_num)

lemma clamp_mem (tauMax tauMin x : ℚ) (h : tauMin ≤ tauMax) :
    tauMin ≤ clamp tauMax tauMin x ∧ clamp tauMax tauMin x ≤ tauMax := by
  unfold clamp
  by_cases h1 : x > tauMax
  · rw [if_pos h1]
    exact ⟨h, le_refl _⟩
  · rw [if_neg h1]
    by_cases h2 : x < tauMin
    · rw [if_pos h2]
      exact ⟨le_refl _, h⟩
    · rw [if_neg h2]
      exact ⟨not_lt.mp h2, not_lt.mp h1⟩

/-- Claim C5: the Max-Min Ant System pheromone update scales every entry by
(1 - rho), deposits q / bestCost exactly on the edges of the global-best tour
(count zero on every other edge), closing edge included, and then clamps the
result into [tauMin, tauMax]: whenever tauMin ≤ tauMax, every entry of the
updated matrix lies within [tauMin, tauMax], for any prior matrix state. -/
theorem mmasUpdatePheromones_spec (size : Nat) (rho q tauMax tauMin : ℚ)
    (bestPath : List Nat) (bestCost : ℚ) (p : Mat) (i j : Nat)
    (hi : i < size) (hj : j < size) (hmm : tauMin ≤ tauMax) :
    mmasUpdatePheromones size rho q tauMax tauMin bestPath bestCost p i j =
      clamp tauMax tauMin
        ((1 - rho) * p i j +
          (q / bestCost) * ((tourEdges size bestPath).count (i, j) : ℚ)) ∧
    tauMin ≤ mmasUpdatePheromones size rho q tauMax tauMin bestPath bestCost p i j ∧
    mmasUpdatePheromones size rho q tauMax tauMin bestPath bestCost p i j ≤ tauMax := by
  have heq : mmasUpdatePheromones size rho q tauMax tauMin bestPath bestCost p i j =
      clamp tauMax tauMin
        ((1 - rho) * p i j +
          (q / bestCost) * ((tourEdges size bestPath).count (i, j) : ℚ)) := by
    unfold mmasUpdatePheromones scalePheromones
    rw [if_pos ⟨hi, hj⟩, depositEdges_apply, evaporate, if_pos ⟨hi, hj⟩]
  refine ⟨heq, ?_, ?_⟩
  · rw [heq]
    exact (clamp_mem _ _ _ hmm).1
  · rw [heq]
    exact (clamp_mem _ _ _ hmm).2

/-- Claim C5 witness: a 1-node update where the deposited value 6 exceeds
tauMax = 2 and is clamped back to it. -/
theorem mmasUpdatePheromones_spec_witness :
    mmasUpdatePheromones 1 (1/2) 1 2 1 [0] 1 (fun _ _ => 10) 0 0 =
      clamp 2 1
        ((1 - 1/2) * 10 + ((1:ℚ) / 1) * ((tourEdges 1 [0]).count (0, 0) : ℚ)) ∧
    (1:ℚ) ≤ mmasUpdatePheromones 1 (1/2) 1 2 1 [0] 1 (fun _ _ => 10) 0 0 ∧
    mmasUpdatePheromones 1 (1/2) 1 2 1 [0] 1 (fun _ _ => 10) 0 0 ≤ 2 :=
  mmasUpdatePheromones_spec 1 (1/2) 1 2 1 [0] 1 (fun _ _ => 10) 0 0
    (by norm_num) (by norm_num) (by norm_num)

lemma mixAt_other (p : Mat) (e : Nat × Nat) (phi tau0 : ℚ) (i j : Nat)
    (h : e ≠ (i, j)) : mixAt p e.1 e.2 phi tau0 i j = p i j := by
  unfold mixAt
  rw [if_neg]
  intro hc
  exact h (by rw [Prod.ext_iff]; exact ⟨hc.1.symm, hc.2.symm⟩)

lemma mixFold_not_mem (phi tau0 : ℚ) :
    ∀ (es : List (Nat × Nat)) (p : Mat) (i j : Nat), (i, j) ∉ es →
    es.foldl (fun acc e => mixAt acc e.1 e.2 phi tau0) p i j = p i j := by
  intro es
  induction es with
  | nil => intro p i j _; rfl
  | cons e t ih =>
    intro p i j hn
    have h1 : (i, j) ∉ t := fun h => hn (List.mem_cons_of_mem e h)
    have h2 : e ≠ (i, j) := fun h => hn (h ▸ List.mem_cons_self e t)
    have hstep : (e :: t).foldl (fun acc x => mixAt acc x.1 x.2 phi tau0) p =
        t.foldl (fun acc x => mixAt acc x.1 x.2 phi tau0) (mixAt p e.1 e.2 phi tau0) := rfl
    rw [hstep, ih _ i j h1, mixAt_other p e phi tau0 i j h2]

lemma mixFold_mem (phi tau0 : ℚ) :
    ∀ (es : List (Nat × Nat)) (p : Mat) (i j : Nat), es.Nodup → (i, j) ∈ es →
    es.foldl (fun acc e => mixAt acc e.1 e.2 phi tau0) p i j =
      (1 - phi) * p i j + phi * tau0 := by
  intro es
  induction es with
  | nil => intro p i j _ h; exact absurd h (List.not_mem_nil _)
  | cons e t ih =>
    intro p i j hnd hm
    have hstep : (e :: t).foldl (fun acc x => mixAt acc x.1 x.2 phi tau0) p =
        t.foldl (fun acc x => mixAt acc x.1 x.2 phi tau0) (mixAt p e.1 e.2 phi tau0) := rfl
    rcases List.mem_cons.mp hm with h | h
    · have hnt : (i, j) ∉ t := by
        intro hc
        exact (List.nodup_cons.mp hnd).1 (h ▸ hc)
      rw [hstep, mixFold_not_mem phi tau0 t _ i j hnt]
      unfold mixAt
      rw [if_pos ⟨congrArg Prod.fst h, congrArg Prod.snd h⟩]
    · have hne : e ≠ (i, j) := by
        intro hc
        refine (List.nodup_cons.mp hnd).1 ?_
        rw [hc]
        exact h
      rw [hstep, ih _ i j (List.nodup_cons.mp hnd).2 h,
        mixAt_other p e phi tau0 i j hne]

lemma range_map_getD (l : List Nat) :
    ∀ n, n ≤ l.length → (List.range n).map (fun k => l.getD k 0) = l.take n := by
  intro n
  induction n with
  | zero => intro _; simp
  | succ n ih =>
    intro h
    have hn : n < l.length := h
    rw [List.range_succ, List.map_append, ih (le_of_lt hn), List.take_succ]
    simp [List.getD_eq_getElem l 0 hn, List.getElem?_eq_some_iff.mpr ⟨hn, rfl⟩]

/-- The first components of the tour edges of a complete path are a
permutation of the path itself (the last node, then all but the last). -/
lemma tourEdges_nodup (size : Nat) (path : List Nat) (hnd : path.Nodup)
    (hlen : path.length = size) (hsz : 0 < size) : (tourEdges size path).Nodup := by
  have hne : path ≠ [] := by
    intro h
    rw [h] at hlen
    simp at hlen
    omega
  have hfst : (tourEdges size path).map Prod.fst =
      path.getD (size - 1) 0 :: (List.range (size - 1)).map (fun k => path.getD k 0) := by
    unfold tourEdges
    rw [List.map_cons, List.map_map, List.range'_eq_map_range, List.map_map]
    congr 1
    apply List.map_congr_left
    intro k _
    simp
  have htake : (List.range (size - 1)).map (fun k => path.getD k 0) = path.dropLast := by
    rw [range_map_getD path (size - 1) (by omega), List.dropLast_eq_take, hlen]
  have hlast : path.getD (size - 1) 0 = path.getLast hne := by
    have hl : size - 1 < path.length := by omega
    rw [List.getD_eq_getElem path 0 hl, List.getLast_eq_getElem path hne]
    congr 1
    omega
  have hperm : List.Perm ((tourEdges size path).map Prod.fst) path := by
    rw [hfst, htake, hlast]
    have h1 : List.Perm (path.dropLast ++ [path.getLast hne])
        (path.getLast hne :: path.dropLast) := List.perm_append_singleton _ _
    have h2 : path.dropLast ++ [path.getLast hne] = path :=
      List.dropLast_append_getLast hne
    exact (h2 ▸ h1).symm
  exact List.Nodup.of_map Prod.fst (hperm.symm.nodup hnd)

/-- Claim C6: the Ant Colony System local update, run right after an ant
completes its tour, replaces the pheromone with (1 - phi) * pheromone +
phi * tau0 on exactly the edges the ant traversed (closing edge included) and
leaves every other entry unchanged; on a traversed edge the value strictly
decreases when phi > 0 and tau0 is below the current value, and strictly
increases when tau0 is above it. -/
theorem localUpdatePheromone_spec (size : Nat) (phi tau0 : ℚ) (path : List Nat)
    (p : Mat) (i j : Nat) (hnd : path.Nodup) (hlen : path.length = size)
    (hsz : 0 < size) :
    ((i, j) ∈ tourEdges size path →
      localUpdatePheromone size phi tau0 path p i j = (1 - phi) * p i j + phi * tau0 ∧
      (0 < phi → tau0 < p i j → localUpdatePheromone size phi tau0 path p i j < p i j) ∧
      (0 < phi → p i j < tau0 → p i j < localUpdatePheromone size phi tau0 path p i j)) ∧
    ((i, j) ∉ tourEdges size path →
      localUpdatePheromone size phi tau0 path p i j = p i j) := by
  constructor
  · intro hm
    have heq : localUpdatePheromone size phi tau0 path p i j =
        (1 - phi) * p i j + phi * tau0 :=
      mixFold_mem phi tau0 (tourEdges size path) p i j
        (tourEdges_nodup size path hnd hlen hsz) hm
    refine ⟨heq, ?_, ?_⟩
    · intro hphi hlt
      rw [heq]
      nlinarith
    · intro hphi hlt
      rw [heq]
      nlinarith
  · exact mixFold_not_mem phi tau0 (tourEdges size path) p i j

/-- Claim C6 witness: tour [0, 1] on a 2-node graph with constant pheromone 5,
phi = 1/2, tau0 = 1, at the traversed edge (0, 1). -/
theorem localUpdatePheromone_spec_witness :
    (((0:Nat), (1:Nat)) ∈ tourEdges 2 [0, 1] →
      localUpdatePheromone 2 (1/2) 1 [0, 1] (fun _ _ => 5) 0 1 =
        (1 - 1/2) * 5 + (1/2) * 1 ∧
      ((0:ℚ) < 1/2 → (1:ℚ) < 5 →
        localUpdatePheromone 2 (1/2) 1 [0, 1] (fun _ _ => 5) 0 1 < 5) ∧
      ((0:ℚ) < 1/2 → (5:ℚ) < 1 →
        (5:ℚ) < localUpdatePheromone 2 (1/2) 1 [0, 1] (fun _ _ => 5) 0 1)) ∧
    (((0:Nat), (1:Nat)) ∉ tourEdges 2 [0, 1] →
      localUpdatePheromone 2 (1/2) 1 [0, 1] (fun _ _ => 5) 0 1 = 5) :=
  localUpdatePheromone_spec 2 (1/2) 1 [0, 1] (fun _ _ => 5) 0 1
    (by decide) (by decide) (by norm_num)

lemma getLastD_mem (l : List Nat) (h : l ≠ []) : l.getLastD 0 ∈ l := by
  rw [List.getLastD_eq_getLast? 0 l, List.getLast?_eq_getLast l h]
  exact List.getLast_mem h

lemma getLastD_irrel (l : List Nat) (h : l ≠ []) (d1 d2 : Nat) :
    l.getLastD d1 = l.getLastD d2 := by
  rw [List.getLastD_eq_getLast? d1 l, List.getLastD_eq_getLast? d2 l,
    List.getLast?_eq_getLast l h]
  rfl

lemma pathCost_concat (g : Mat) :
    ∀ (l : List Nat) (x : Nat), l ≠ [] →
    pathCost g (l ++ [x]) = pathCost g l + g (l.getLastD 0) x := by
  intro l
  induction l with
  | nil => intro x h; exact absurd rfl h
  | cons a t ih =>
    intro x _
    cases t with
    | nil => simp [pathCost]
    | cons b t2 =>
      have hstep : pathCost g ((a :: b :: t2) ++ [x]) =
          g a b + pathCost g ((b :: t2) ++ [x]) := rfl
      rw [hstep, ih x (List.cons_ne_nil b t2)]
      have hlast : (a :: b :: t2).getLastD 0 = (b :: t2).getLastD 0 := by
        rw [List.getLastD_cons]
        exact getLastD_irrel (b :: t2) (List.cons_ne_nil b t2) a 0
      rw [pathCost, hlast]
      ring

lemma pathCost_nonneg (g : Mat) (size : Nat)
    (hg : ∀ i j, i < size → j < size → 0 < g i j) :
    ∀ (l : List Nat), (∀ x ∈ l, x < size) → 0 ≤ pathCost g l := by
  intro l
  induction l with
  | nil => intro _; exact le_refl 0
  | cons a t ih =>
    intro hmem
    cases t with
    | nil => exact le_refl 0
    | cons b t2 =>
      have h1 : pathCost g (a :: b :: t2) = g a b + pathCost g (b :: t2) := rfl
      rw [h1]
      have ha : a < size := hmem a (List.mem_cons_self a _)
      have hb : b < size := hmem b (List.mem_cons_of_mem a (List.mem_cons_self b _))
      have ht : ∀ x ∈ b :: t2, x < size := fun x hx => hmem x (List.mem_cons_of_mem a hx)
      exact add_nonneg (le_of_lt (hg a b ha hb)) (ih ht)

lemma chooseProbs_length (rpow : ℚ → ℚ → ℚ) (alfa beta : ℚ) (size : Nat)
    (pher w : Mat) (a : AntState) :
    (chooseProbs rpow alfa beta size pher w a).length = size := by
  simp [chooseProbs]

lemma chooseProbs_getD (rpow : ℚ → ℚ → ℚ) (alfa beta : ℚ) (size : Nat)
    (pher w : Mat) (a : AntState) (k : Nat) (hk : k < size) :
    (chooseProbs rpow alfa beta size pher w a).getD k 0 =
      if a.visited k then 0
      else rpow (pher (a.path.getLastD 0) k) alfa * rpow (w (a.path.getLastD 0) k) beta := by
  have hlen : k < (chooseProbs rpow alfa beta size pher w a).length := by
    rw [chooseProbs_length]; exact hk
  rw [List.getD_eq_getElem _ 0 hlen]
  unfold chooseProbs
  simp [hk]

lemma chooseProbs_nonneg (rpow : ℚ → ℚ → ℚ) (alfa beta : ℚ) (size : Nat)
    (pher w : Mat) (a : AntState)
    (hpow : ∀ x e, 0 < x → 0 < rpow x e)
    (hpher : ∀ i j, i < size → j < size → 0 < pher i j)
    (hw : ∀ i j, i < size → j < size → 0 < w i j)
    (hprev : a.path.getLastD 0 < size) :
    ∀ p ∈ chooseProbs rpow alfa beta size pher w a, 0 ≤ p := by
  intro p hp
  obtain ⟨next, hnext, rfl⟩ := List.mem_map.mp hp
  have hn : next < size := List.mem_range.mp hnext
  by_cases hv : a.visited next
  · rw [if_pos hv]
  · rw [if_neg hv]
    exact le_of_lt (mul_pos (hpow _ alfa (hpher _ _ hprev hn)) (hpow _ beta (hw _ _ hprev hn)))

lemma chooseNode_valid (rpow : ℚ → ℚ → ℚ) (alfa beta : ℚ) (size : Nat)
    (pher w : Mat) (a : AntState) (r : ℚ)
    (hpow : ∀ x e, 0 < x → 0 < rpow x e)
    (hpher : ∀ i j, i < size → j < size → 0 < pher i j)
    (hw : ∀ i j, i < size → j < size → 0 < w i j)
    (hne : a.path ≠ []) (hmem : ∀ x ∈ a.path, x < size)
    (hunvis : ∃ jj, jj < size ∧ a.visited jj = false)
    (hr0 : 0 < r) (hr1 : r < 1) :
    ∃ k, chooseNode rpow alfa beta size pher w a r = some k ∧ k < size ∧
      a.visited k = false := by
  set probs := chooseProbs rpow alfa beta size pher w a with hprobs
  have hprev : a.path.getLastD 0 < size := hmem _ (getLastD_mem a.path hne)
  have hnn : ∀ p ∈ probs, 0 ≤ p :=
    chooseProbs_nonneg rpow alfa beta size pher w a hpow hpher hw hprev
  obtain ⟨jj, hjj, hjv⟩ := hunvis
  have hjlen : jj < probs.length := by rw [hprobs, chooseProbs_length]; exact hjj
  have hjpos : 0 < probs.getD jj 0 := by
    rw [hprobs, chooseProbs_getD rpow alfa beta size pher w a jj hjj, hjv]
    show (0:ℚ) < if False then 0 else _
    rw [if_neg (fun h => h)]
    exact mul_pos (hpow _ alfa (hpher _ _ hprev hjj)) (hpow _ beta (hw _ _ hprev hjj))
  have hsum : 0 < probs.sum := by
    have hle : probs.getD jj 0 ≤ probs.sum := by
      rw [List.getD_eq_getElem _ 0 hjlen]
      exact List.single_le_sum hnn _ (List.getElem_mem hjlen)
    exact lt_of_lt_of_le hjpos hle
  have hneL : probs ≠ [] := by
    intro h
    rw [h] at hjlen
    simp at hjlen
  have hu0 : 0 < probs.sum * r := mul_pos hsum hr0
  have hu1 : probs.sum * r ≤ probs.sum := le_of_lt (mul_lt_of_lt_one_right hsum hr1)
  obtain ⟨k, hk, hklen, hk3, hk4⟩ := simulateChoiceU_spec probs (probs.sum * r) hneL hnn hu1
  have hksize : k < size := by rwa [hprobs, chooseProbs_length] at hklen
  have hkpos : 0 < probs.getD k 0 := by
    cases k with
    | zero =>
      rw [← prefixSum_zero]
      exact lt_of_lt_of_le hu0 hk3
    | succ kk =>
      have h1 : prefixSum probs kk < probs.sum * r := hk4 kk (Nat.lt_succ_self kk)
      have h2 : prefixSum probs (kk + 1) = prefixSum probs kk + probs.getD (kk + 1) 0 :=
        prefixSum_succ probs kk
      have h3 : prefixSum probs kk + probs.getD (kk + 1) 0 ≥ probs.sum * r := h2 ▸ hk3
      linarith
  have hkvis : a.visited k = false := by
    by_cases hv : a.visited k
    · rw [hprobs, chooseProbs_getD rpow alfa beta size pher w a k hksize, if_pos hv] at hkpos
      exact absurd hkpos (lt_irrefl 0)
    · exact Bool.not_eq_true _ ▸ (by simpa using hv)
  exact ⟨k, hk, hksize, hkvis⟩

lemma exists_unvisited (size : Nat) (a : AntState)
    (hmem : ∀ x ∈ a.path, x < size)
    (hlen : a.path.length < size)
    (hiff : ∀ j, a.visited j = true ↔ j ∈ a.path) :
    ∃ jj, jj < size ∧ a.visited jj = false := by
  by_contra hcon
  push_neg at hcon
  have hall : ∀ jj, jj < size → jj ∈ a.path := by
    intro jj hjj
    have h := hcon jj hjj
    have hv : a.visited jj = true := by
      cases hb : a.visited jj
      · exact absurd hb h
      · rfl
    exact (hiff jj).mp hv
  have hsub : Finset.range size ⊆ a.path.toFinset := by
    intro x hx
    exact List.mem_toFinset.mpr (hall x (Finset.mem_range.mp hx))
  have hcard : size ≤ a.path.toFinset.card := by
    have := Finset.card_le_card hsub
    rwa [Finset.card_range] at this
  have hcard2 : a.path.toFinset.card ≤ a.path.length := List.toFinset_card_le _
  omega

lemma antSimLoop_valid (rpow : ℚ → ℚ → ℚ) (g pher w : Mat) (alfa beta : ℚ)
    (size : Nat) (rs : Nat → ℚ)
    (hpow : ∀ x e, 0 < x → 0 < rpow x e)
    (hpher : ∀ i j, i < size → j < size → 0 < pher i j)
    (hw : ∀ i j, i < size → j < size → 0 < w i j)
    (hr : ∀ i, 0 < rs i ∧ rs i < 1) :
    ∀ fuel i a, a.path.length + fuel = size → a.path ≠ [] → a.path.Nodup →
      (∀ x ∈ a.path, x < size) → (∀ j, a.visited j = true ↔ j ∈ a.path) →
      a.cost = pathCost g a.path →
    ∃ b, antSimLoop rpow g pher w alfa beta size rs fuel i a = some b ∧
      b.path.length = size ∧ b.path.Nodup ∧ (∀ x ∈ b.path, x < size) ∧
      b.path ≠ [] ∧
      b.cost = pathCost g b.path + g (b.path.getLastD 0) (b.path.headD 0) := by
  intro fuel
  induction fuel with
  | zero =>
    intro i a hlen hne hnd hmem hiff hcost
    refine ⟨_, rfl, ?_, hnd, hmem, hne, ?_⟩
    · show a.path.length = size
      omega
    · show a.cost + g (a.path.getLastD 0) (a.path.headD 0) = _
      rw [hcost]
  | succ fuel ih =>
    intro i a hlen hne hnd hmem hiff hcost
    have hplt : a.path.length < size := by omega
    have hunvis := exists_unvisited size a hmem hplt hiff
    obtain ⟨nxt, hch, hnxt, hnv⟩ :=
      chooseNode_valid rpow alfa beta size pher w a (rs i) hpow hpher hw hne hmem hunvis
        (hr i).1 (hr i).2
    have hnmem : nxt ∉ a.path := by
      intro hc
      rw [(hiff nxt).mpr hc] at hnv
      exact Bool.true_eq_false.mp hnv
    have hstep : antSimLoop rpow g pher w alfa beta size rs (fuel + 1) i a =
        antSimLoop rpow g pher w alfa beta size rs fuel (i + 1) (stepAnt g a nxt) := by
      rw [antSimLoop, hch]
    rw [hstep]
    apply ih (i + 1) (stepAnt g a nxt)
    · show (a.path ++ [nxt]).length + fuel = size
      rw [List.length_append]
      simp only [List.length_singleton]
      omega
    · show a.path ++ [nxt] ≠ []
      simp
    · show (a.path ++ [nxt]).Nodup
      rw [List.nodup_append]
      refine ⟨hnd, List.nodup_singleton nxt, ?_⟩
      intro x hx hx2
      rw [List.mem_singleton] at hx2
      exact hnmem (hx2 ▸ hx)
    · intro x hx
      rcases List.mem_append.mp hx with h | h
      · exact hmem x h
      · rw [List.mem_singleton] at h
        exact h ▸ hnxt
    · intro j
      show (if j = nxt then true else a.visited j) = true ↔ j ∈ a.path ++ [nxt]
      by_cases hj : j = nxt
      · rw [if_pos hj, hj]
        simp
      · rw [if_neg hj]
        rw [hiff j]
        constructor
        · exact fun h => List.mem_append.mpr (Or.inl h)
        · intro h
          rcases List.mem_append.mp h with h | h
          · exact h
          · rw [List.mem_singleton] at h
            exact absurd h hj
    · show a.cost + g (a.path.getLastD 0) nxt = pathCost g (a.path ++ [nxt])
      rw [pathCost_concat g a.path nxt hne, hcost]

/-- Success and validity of one Ant System / Max-Min tour construction: with
positive pheromone and weight entries, strictly positive sub-1 draws and an
in-range start node, the ant completes with a path of exactly size pairwise
distinct in-range nodes and the accumulated cost of its edges, closing edge
included. -/
lemma antSimulation_valid (rpow : ℚ → ℚ → ℚ) (g pher w : Mat) (alfa beta : ℚ)
    (size start : Nat) (rs : Nat → ℚ)
    (hsz : 0 < size) (hstart : start < size)
    (hpow : ∀ x e, 0 < x → 0 < rpow x e)
    (hpher : ∀ i j, i < size → j < size → 0 < pher i j)
    (hw : ∀ i j, i < size → j < size → 0 < w i j)
    (hr : ∀ i, 0 < rs i ∧ rs i < 1) :
    ∃ b, antSimulation rpow g pher w alfa beta size start rs = some b ∧
      b.path.length = size ∧ b.path.Nodup ∧ (∀ x ∈ b.path, x < size) ∧
      b.path ≠ [] ∧
      b.cost = pathCost g b.path + g (b.path.getLastD 0) (b.path.headD 0) := by
  apply antSimLoop_valid rpow g pher w alfa beta size rs hpow hpher hw hr (size - 1) 0
  · show ([] ++ [start] : List Nat).length + (size - 1) = size
    simp
    omega
  · show ([] ++ [start] : List Nat) ≠ []
    simp
  · show ([] ++ [start] : List Nat).Nodup
    simp
  · intro x hx
    have : x ∈ ([start] : List Nat) := hx
    rw [List.mem_singleton] at this
    exact this ▸ hstart
  · intro j
    show (if j = start then true else false) = true ↔ j ∈ ([] ++ [start] : List Nat)
    by_cases hj : j = start
    · rw [if_pos hj, hj]
      simp
    · rw [if_neg hj]
      simp [hj]
  · show (0:ℚ) = pathCost g ([] ++ [start])
    rfl

/-- Claim C2 counterexample: rand.Float64() ranges over [0,1) and may return
exactly 0; on a 2-node graph with unit matrices, start node 0 and the draw 0,
the loop c < u of simulateChoice exits immediately at the already-visited
index 0, so the ant revisits node 0 and its tour [0, 0] is not a permutation
of the node indices. -/
theorem antSimulation_not_perm :
    (antSimulation (fun x _ => x) (fun _ _ => 1) (fun _ _ => 1) (fun _ _ => 1)
        1 1 2 0 (fun _ => 0)).map AntState.path = some [0, 0] ∧
      ¬ ([0, 0] : List Nat).Nodup := by
  constructor
  · norm_num [antSimulation, antSimLoop, chooseNode, chooseProbs, simulateChoice,
      simulateChoiceU, scLoop, stepAnt, visitNode, List.range_succ]
  · decide

/-- Claim C2 (amended): for the colony tour construction shared by Ant System
and Max-Min Ant System, each tour produced by antSimulation is a permutation
of the node indices 0 .. N-1 (exactly N elements, no repeated node), and the
accumulated cost equals the sum of the graph costs of the N-1 traversed edges
plus the closing edge from the last node back to the start node — provided
every roulette draw is strictly positive (a draw of exactly 0 breaks the
property, see the counterexample) and pheromone/weight entries are positive
in range. -/
theorem antSimulation_perm_spec (rpow : ℚ → ℚ → ℚ) (g pher w : Mat)
    (alfa beta : ℚ) (size start : Nat) (rs : Nat → ℚ)
    (hsz : 0 < size) (hstart : start < size)
    (hpow : ∀ x e, 0 < x → 0 < rpow x e)
    (hpher : ∀ i j, i < size → j < size → 0 < pher i j)
    (hw : ∀ i j, i < size → j < size → 0 < w i j)
    (hr : ∀ i, 0 < rs i ∧ rs i < 1) :
    ∃ b, antSimulation rpow g pher w alfa beta size start rs = some b ∧
      List.Perm b.path (List.range size) ∧
      b.cost = pathCost g b.path + g (b.path.getLastD 0) (b.path.headD 0) := by
  obtain ⟨b, hb, hlen, hnd, hmem, hne, hcost⟩ :=
    antSimulation_valid rpow g pher w alfa beta size start rs hsz hstart hpow hpher hw hr
  refine ⟨b, hb, ?_, hcost⟩
  have hsub : b.path.toFinset ⊆ (List.range size).toFinset := by
    intro x hx
    exact List.mem_toFinset.mpr (List.mem_range.mpr (hmem x (List.mem_toFinset.mp hx)))
  have hc1 : b.path.toFinset.card = size := by
    rw [List.toFinset_card_of_nodup hnd, hlen]
  have hc2 : (List.range size).toFinset.card = size := by
    rw [List.toFinset_card_of_nodup (List.nodup_range size), List.length_range]
  have heq : b.path.toFinset = (List.range size).toFinset :=
    Finset.eq_of_subset_of_card_le hsub (by omega)
  exact List.perm_of_nodup_nodup_toFinset_eq hnd (List.nodup_range size) heq

/-- Claim C2 witness: a 2-node tour with draw 1/2 visits [0, 1], a permutation
of range 2, with cost g 0 1 + g 1 0. -/
theorem antSimulation_perm_spec_witness :
    ∃ b, antSimulation (fun x _ => x) (fun _ _ => 1) (fun _ _ => 1) (fun _ _ => 1)
        1 1 2 0 (fun _ => 1/2) = some b ∧
      List.Perm b.path (List.range 2) ∧
      b.cost = pathCost (fun _ _ => 1) b.path +
        (fun _ _ => (1:ℚ)) (b.path.getLastD 0) (b.path.headD 0) :=
  antSimulation_perm_spec (fun x _ => x) (fun _ _ => 1) (fun _ _ => 1) (fun _ _ => 1)
    1 1 2 0 (fun _ => 1/2) (by norm_num) (by norm_num)
    (fun x e h => h) (fun i j _ _ => one_pos) (fun i j _ _ => one_pos)
    (fun i => ⟨by norm_num, by norm_num⟩)

/-- Claim C7: on a 3-node instance where the ant sits on node 0 (already
visited) and the unvisited selection weights are 2 for node 1 and 1 for node
2, with q0 = 1 (so the claimed pure-exploitation branch should always fire and
pick the unvisited maximizer, node 1), the Ant Colony System chooseNode
returns node 0 — an already visited node — because exploitPheromones
overwrites every entry with pMax and returns a newSum not larger than pMax,
making the subsequent roulette stop at index 0.  This contradicts both the
greedy-argmax and the roulette reading of the claim. -/
theorem acsChooseNode_bug :
    acsChooseNode (fun x _ => x) 1 1 1 3 (fun _ j => if j = 1 then 2 else 1)
        (fun _ _ => 1) ⟨0, [0], fun j => j == 0⟩ (fun _ => 0) (1/2) = some 0 ∧
      chooseProbs (fun x _ => x) 1 1 3 (fun _ j => if j = 1 then 2 else 1)
        (fun _ _ => 1) ⟨0, [0], fun j => j == 0⟩ = [0, 2, 1] ∧
      (⟨0, [0], fun j => j == 0⟩ : AntState).visited 0 = true := by
  refine ⟨?_, ?_, rfl⟩
  · norm_num [acsChooseNode, exploitPheromones, exploitGo, chooseProbs,
      simulateChoice, simulateChoiceU, scLoop, List.range_succ]
  · norm_num [chooseProbs, List.range_succ]

/-- Claim C8: with iterations = 0, every solve entrypoint performs no tour
construction and no pheromone update and returns the initial best state: cost
exactly 0 and the initial best path make([]int, size) — a length-N all-zero
list, which for N ≥ 2 is not a valid tour (it repeats node 0). -/
theorem solve_zero_iterations (g : Mat) (size : Nat) (alfa beta rho q : ℚ)
    (m : Nat) (tauMax tauMin tau0 phi q0 : ℚ) (rpow : ℚ → ℚ → ℚ)
    (starts : Nat → Nat → Nat) (draws : Nat → Nat → Nat → ℚ)
    (drawsE : Nat → Nat → Nat → Nat → ℚ) (drawsU : Nat → Nat → Nat → ℚ)
    (hsz : 2 ≤ size) :
    SolveATSP g size alfa beta rho q m 0 rpow starts draws =
        some (0, List.replicate size 0) ∧
      SolveMMAS g size alfa beta rho q m tauMax tauMin 0 rpow starts draws =
        some (0, List.replicate size 0) ∧
      SolveACS g size alfa beta rho q m tau0 phi q0 0 rpow starts drawsE drawsU =
        some (0, List.replicate size 0) ∧
      (List.replicate size 0).length = size ∧
      ¬ (List.replicate size (0:Nat)).Nodup := by
  refine ⟨rfl, rfl, rfl, List.length_replicate size 0, ?_⟩
  rw [List.nodup_replicate]
  omega

/-- Claim C8 witness: the three entrypoints at size 2 with constant streams. -/
theorem solve_zero_iterations_witness :
    SolveATSP (fun _ _ => 1) 2 1 2 (1/2) 1 1 0 (fun x _ => x) (fun _ _ => 0)
        (fun _ _ _ => 1/2) = some (0, List.replicate 2 0) ∧
      SolveMMAS (fun _ _ => 1) 2 1 2 (1/2) 1 1 5 (1/5) 0 (fun x _ => x)
        (fun _ _ => 0) (fun _ _ _ => 1/2) = some (0, List.replicate 2 0) ∧
      SolveACS (fun _ _ => 1) 2 1 2 (1/2) 1 1 (1/10) (1/10) (1/2) 0 (fun x _ => x)
        (fun _ _ => 0) (fun _ _ _ _ => 1/2) (fun _ _ _ => 1/2) =
        some (0, List.replicate 2 0) ∧
      (List.replicate 2 0).length = 2 ∧
      ¬ (List.replicate 2 (0:Nat)).Nodup :=
  solve_zero_iterations (fun _ _ => 1) 2 1 2 (1/2) 1 1 5 (1/5) (1/10) (1/10) (1/2)
    (fun x _ => x) (fun _ _ => 0) (fun _ _ _ => 1/2) (fun _ _ _ _ => 1/2)
    (fun _ _ _ => 1/2) (by norm_num)

/-- Claim C9: each solve entrypoint is a deterministic function of the graph,
the parameters, the iteration count and the random streams: two runs observing
pointwise equal random draw streams return identical best costs and best
tours, for the Ant System, Max-Min and Ant Colony System entrypoints. -/
theorem solve_deterministic (g : Mat) (size : Nat) (alfa beta rho q : ℚ)
    (m : Nat) (tauMax tauMin tau0 phi q0 : ℚ) (iterations : Nat)
    (rpow : ℚ → ℚ → ℚ)
    (starts1 starts2 : Nat → Nat → Nat) (draws1 draws2 : Nat → Nat → Nat → ℚ)
    (drawsE1 drawsE2 : Nat → Nat → Nat → Nat → ℚ)
    (drawsU1 drawsU2 : Nat → Nat → Nat → ℚ)
    (hs : ∀ gen a, starts1 gen a = starts2 gen a)
    (hd : ∀ gen a i, draws1 gen a i = draws2 gen a i)
    (hdE : ∀ gen a i k, drawsE1 gen a i k = drawsE2 gen a i k)
    (hdU : ∀ gen a i, drawsU1 gen a i = drawsU2 gen a i) :
    SolveATSP g size alfa beta rho q m iterations rpow starts1 draws1 =
        SolveATSP g size alfa beta rho q m iterations rpow starts2 draws2 ∧
      SolveMMAS g size alfa beta rho q m tauMax tauMin iterations rpow starts1 draws1 =
        SolveMMAS g size alfa beta rho q m tauMax tauMin iterations rpow starts2 draws2 ∧
      SolveACS g size alfa beta rho q m tau0 phi q0 iterations rpow starts1 drawsE1 drawsU1 =
        SolveACS g size alfa beta rho q m tau0 phi q0 iterations rpow starts2 drawsE2 drawsU2 := by
  have e1 : starts1 = starts2 := funext fun gen => funext fun a => hs gen a
  have e2 : draws1 = draws2 := funext fun gen => funext fun a => funext fun i => hd gen a i
  have e3 : drawsE1 = drawsE2 :=
    funext fun gen => funext fun a => funext fun i => funext fun k => hdE gen a i k
  have e4 : drawsU1 = drawsU2 := funext fun gen => funext fun a => funext fun i => hdU gen a i
  rw [e1, e2, e3, e4]
  exact ⟨rfl, rfl, rfl⟩

/-- Claim C9 witness: determinism instantiated on a concrete configuration
with syntactically distinct but pointwise equal streams. -/
theorem solve_deterministic_witness :
    SolveATSP (fun _ _ => 1) 2 1 2 (1/2) 1 1 3 (fun x _ => x) (fun _ _ => 0)
        (fun _ _ _ => 1/2) =
      SolveATSP (fun _ _ => 1) 2 1 2 (1/2) 1 1 3 (fun x _ => x) (fun _ a => 0 * a)
        (fun _ _ _ => 2/4) ∧
      SolveMMAS (fun _ _ => 1) 2 1 2 (1/2) 1 1 5 (1/5) 3 (fun x _ => x)
        (fun _ _ => 0) (fun _ _ _ => 1/2) =
        SolveMMAS (fun _ _ => 1) 2 1 2 (1/2) 1 1 5 (1/5) 3 (fun x _ => x)
          (fun _ a => 0 * a) (fun _ _ _ => 2/4) ∧
      SolveACS (fun _ _ => 1) 2 1 2 (1/2) 1 1 (1/10) (1/10) (1/2) 3 (fun x _ => x)
        (fun _ _ => 0) (fun _ _ _ _ => 1/2) (fun _ _ _ => 1/2) =
        SolveACS (fun _ _ => 1) 2 1 2 (1/2) 1 1 (1/10) (1/10) (1/2) 3 (fun x _ => x)
          (fun _ a => 0 * a) (fun _ _ _ _ => 2/4) (fun _ _ _ => 2/4) :=
  solve_deterministic (fun _ _ => 1) 2 1 2 (1/2) 1 1 5 (1/5) (1/10) (1/10) (1/2) 3
    (fun x _ => x) (fun _ _ => 0) (fun _ a => 0 * a) (fun _ _ _ => 1/2)
    (fun _ _ _ => 2/4) (fun _ _ _ _ => 1/2) (fun _ _ _ _ => 2/4)
    (fun _ _ _ => 1/2) (fun _ _ _ => 2/4)
    (fun gen a => by norm_num) (fun gen a i => by norm_num)
    (fun gen a i k => by norm_num) (fun gen a i => by norm_num)

lemma headD_mem (l : List Nat) (h : l ≠ []) : l.headD 0 ∈ l := by
  cases l with
  | nil => exact absurd rfl h
  | cons a t => exact List.mem_cons_self a t

lemma seqOpt_ok {α : Type} (P : α → Prop) :
    ∀ (l : List (Option α)), (∀ o ∈ l, ∃ x, o = some x ∧ P x) →
    ∃ xs, seqOpt l = some xs ∧ xs.length = l.length ∧ ∀ x ∈ xs, P x := by
  intro l
  induction l with
  | nil => exact fun _ => ⟨[], rfl, rfl, fun x hx => absurd hx (List.not_mem_nil x)⟩
  | cons o rest ih =>
    intro h
    obtain ⟨x, hox, hPx⟩ := h o (List.mem_cons_self o rest)
    obtain ⟨xs, hxs, hlen, hP⟩ := ih (fun o2 ho2 => h o2 (List.mem_cons_of_mem o ho2))
    refine ⟨x :: xs, ?_, by simp [hlen], ?_⟩
    · rw [hox]
      show (match seqOpt rest with
        | none => none
        | some l => some (x :: l)) = some (x :: xs)
      rw [hxs]
    · intro y hy
      rcases List.mem_cons.mp hy with h2 | h2
      · exact h2 ▸ hPx
      · exact hP y h2

/-- A completed Ant System / Max-Min tour has strictly positive cost whenever
the graph entries are strictly positive in range. -/
lemma antSimulation_cost_pos (rpow : ℚ → ℚ → ℚ) (g pher w : Mat) (alfa beta : ℚ)
    (size start : Nat) (rs : Nat → ℚ)
    (hsz : 0 < size) (hstart : start < size)
    (hg : ∀ i j, i < size → j < size → 0 < g i j)
    (hpow : ∀ x e, 0 < x → 0 < rpow x e)
    (hpher : ∀ i j, i < size → j < size → 0 < pher i j)
    (hw : ∀ i j, i < size → j < size → 0 < w i j)
    (hr : ∀ i, 0 < rs i ∧ rs i < 1) :
    ∃ b, antSimulation rpow g pher w alfa beta size start rs = some b ∧ 0 < b.cost := by
  obtain ⟨b, hb, _, _, hmem, hne, hcost⟩ :=
    antSimulation_valid rpow g pher w alfa beta size start rs hsz hstart hpow hpher hw hr
  refine ⟨b, hb, ?_⟩
  rw [hcost]
  have hclose : 0 < g (b.path.getLastD 0) (b.path.headD 0) :=
    hg _ _ (hmem _ (getLastD_mem b.path hne)) (hmem _ (headD_mem b.path hne))
  have hpc : 0 ≤ pathCost g b.path := pathCost_nonneg g size hg b.path hmem
  linarith

lemma constructAS_ok (rpow : ℚ → ℚ → ℚ) (g pher w : Mat) (alfa beta : ℚ)
    (size m gen : Nat) (starts : Nat → Nat → Nat) (draws : Nat → Nat → Nat → ℚ)
    (hsz : 0 < size)
    (hg : ∀ i j, i < size → j < size → 0 < g i j)
    (hpow : ∀ x e, 0 < x → 0 < rpow x e)
    (hpher : ∀ i j, i < size → j < size → 0 < pher i j)
    (hw : ∀ i j, i < size → j < size → 0 < w i j)
    (hstarts : ∀ gen a, starts gen a < size)
    (hdraws : ∀ gen a i, 0 < draws gen a i ∧ draws gen a i < 1) :
    ∃ ants, constructAntSolutions rpow g pher w alfa beta size m gen starts draws = some ants ∧
      ants.length = m ∧ ∀ b ∈ ants, 0 < b.cost := by
  obtain ⟨xs, hxs, hlen, hP⟩ := seqOpt_ok (fun b : AntState => 0 < b.cost)
    ((List.range m).map (fun a =>
      antSimulation rpow g pher w alfa beta size (starts gen a) (fun i => draws gen a i)))
    (by
      intro o ho
      obtain ⟨a, _, rfl⟩ := List.mem_map.mp ho
      exact antSimulation_cost_pos rpow g pher w alfa beta size (starts gen a)
        (fun i => draws gen a i) hsz (hstarts gen a) hg hpow hpher hw
        (fun i => hdraws gen a i))
  refine ⟨xs, hxs, ?_, hP⟩
  rw [hlen, List.length_map, List.length_range]

/-- Pheromone positivity is preserved by the Ant System update when rho < 1,
q ≥ 0 and every ant cost is positive. -/
lemma updatePheromones_pos (size : Nat) (rho q : ℚ) (ants : List AntState) (p : Mat)
    (hrho : rho < 1) (hq : 0 ≤ q) (hcost : ∀ a ∈ ants, 0 < a.cost)
    (hp : ∀ i j, i < size → j < size → 0 < p i j) :
    ∀ i j, i < size → j < size → 0 < updatePheromones size rho q ants p i j := by
  intro i j hi hj
  rw [updatePheromones_apply size rho q ants p i j hi hj]
  have h1 : 0 < (1 - rho) * p i j := mul_pos (by linarith) (hp i j hi hj)
  have h2 : 0 ≤ (ants.map (fun a =>
      (q / a.cost) * ((tourEdges size a.path).count (i, j) : ℚ))).sum := by
    apply List.sum_nonneg
    intro x hx
    obtain ⟨a, ha, rfl⟩ := List.mem_map.mp hx
    exact mul_nonneg (div_nonneg hq (le_of_lt (hcost a ha))) (Nat.cast_nonneg _)
  linarith

lemma solveLoop_ok (step : Nat → ColonyState → Option ColonyState)
    (Q : ColonyState → Prop)
    (hstep : ∀ gi st, Q st → ∃ st2, step gi st = some st2 ∧ Q st2) :
    ∀ n gi st, Q st → ∃ st2, solveLoop step n gi st = some st2 ∧ Q st2 := by
  intro n
  induction n with
  | zero => exact fun gi st h => ⟨st, rfl, h⟩
  | succ n ih =>
    intro gi st h
    obtain ⟨st1, hst1, hQ1⟩ := hstep gi st h
    obtain ⟨st2, hst2, hQ2⟩ := ih (gi + 1) st1 hQ1
    refine ⟨st2, ?_, hQ2⟩
    show (match step gi st with
      | none => none
      | some st2 => solveLoop step n (gi + 1) st2) = some st2
    rw [hst1]
    exact hst2

lemma solveLoop_succ_back (step : Nat → ColonyState → Option ColonyState) :
    ∀ n gi st, solveLoop step (n + 1) gi st =
      match solveLoop step n gi st with
      | none => none
      | some st2 => step (gi + n) st2 := by
  intro n
  induction n with
  | zero =>
    intro gi st
    show (match step gi st with
      | none => none
      | some st2 => some st2) = step gi st
    cases h : step gi st with
    | none => rfl
    | some st2 => rfl
  | succ n ih =>
    intro gi st
    show (match step gi st with
      | none => none
      | some st1 => solveLoop step (n + 1) (gi + 1) st1) =
      (match (match step gi st with
        | none => none
        | some st1 => solveLoop step n (gi + 1) st1) with
       | none => none
       | some st2 => step (gi + (n + 1)) st2)
    cases h : step gi st with
    | none => rfl
    | some st1 =>
      show solveLoop step (n + 1) (gi + 1) st1 =
        (match solveLoop step n (gi + 1) st1 with
         | none => none
         | some st2 => step (gi + (n + 1)) st2)
      rw [ih (gi + 1) st1]
      have hg : gi + 1 + n = gi + (n + 1) := by omega
      rw [hg]

lemma monotone_of_genStep (step : Nat → ColonyState → Option ColonyState)
    (init : ColonyState) (Inv : ColonyState → Prop)
    (hinv0 : Inv init)
    (hstep : ∀ gi st, Inv st → ∃ st2, step gi st = some st2 ∧ Inv st2 ∧
      (0 < st.bestCost → st2.bestCost ≤ st.bestCost) ∧ 0 < st2.bestCost) :
    monotoneFromFirstGen step init := by
  intro k
  have hstep2 : ∀ gi st, (Inv st ∧ 0 < st.bestCost) →
      ∃ st2, step gi st = some st2 ∧ (Inv st2 ∧ 0 < st2.bestCost) := by
    intro gi st ⟨h1, _⟩
    obtain ⟨st2, hs, hi, _, hp⟩ := hstep gi st h1
    exact ⟨st2, hs, hi, hp⟩
  obtain ⟨st1, hst1, hinv1, _, hpos1⟩ := hstep 0 init hinv0
  have hfront : solveLoop step (k + 1) 0 init = solveLoop step k 1 st1 := by
    show (match step 0 init with
      | none => none
      | some st2 => solveLoop step k 1 st2) = _
    rw [hst1]
  obtain ⟨st, hst, hinvs, hposs⟩ :=
    solveLoop_ok step (fun s => Inv s ∧ 0 < s.bestCost) hstep2 k 1 st1 ⟨hinv1, hpos1⟩
  have hstA : solveLoop step (k + 1) 0 init = some st := by rw [hfront]; exact hst
  obtain ⟨st2, hst2, _, hmono, hpos2⟩ := hstep (0 + (k + 1)) st hinvs
  refine ⟨st, st2, hstA, ?_, hmono hposs, hposs, hpos2⟩
  rw [solveLoop_succ_back step (k + 1) 0 init, hstA]
  exact hst2

lemma asGenStep_ok (rpow : ℚ → ℚ → ℚ) (g : Mat) (alfa beta rho q : ℚ)
    (size m : Nat) (starts : Nat → Nat → Nat) (draws : Nat → Nat → Nat → ℚ)
    (hsz : 0 < size) (hm : 0 < m)
    (hg : ∀ i j, i < size → j < size → 0 < g i j)
    (hrho : rho < 1) (hq : 0 < q)
    (hpow : ∀ x e, 0 < x → 0 < rpow x e)
    (hstarts : ∀ gen a, starts gen a < size)
    (hdraws : ∀ gen a i, 0 < draws gen a i ∧ draws gen a i < 1) :
    ∀ gi st, InvP size st →
    ∃ st2, asGenStep rpow g (weightsAS g) alfa beta rho q size m starts draws gi st = some st2 ∧
      InvP size st2 ∧ (0 < st.bestCost → st2.bestCost ≤ st.bestCost) ∧ 0 < st2.bestCost := by
  intro gi st hinv
  have hw : ∀ i j, i < size → j < size → 0 < weightsAS g i j := by
    intro i j hi hj
    exact one_div_pos.mpr (hg i j hi hj)
  obtain ⟨ants, hants, hlen, hcost⟩ := constructAS_ok rpow g st.pheromones (weightsAS g)
    alfa beta size m gi starts draws hsz hg hpow hinv.1 hw hstarts hdraws
  have hne : ants ≠ [] := by
    intro h
    rw [h] at hlen
    simp at hlen
    omega
  have hstep : asGenStep rpow g (weightsAS g) alfa beta rho q size m starts draws gi st =
      some ⟨updatePheromones size rho q ants st.pheromones,
        (updateBestPath ants st.bestPath st.bestCost).1,
        (updateBestPath ants st.bestPath st.bestCost).2⟩ := by
    show (match constructAntSolutions rpow g st.pheromones (weightsAS g) alfa beta
        size m gi starts draws with
      | none => none
      | some ants => some (⟨updatePheromones size rho q ants st.pheromones,
          (updateBestPath ants st.bestPath st.bestCost).1,
          (updateBestPath ants st.bestPath st.bestCost).2⟩ : ColonyState)) = _
    rw [hants]
  refine ⟨_, hstep, ⟨?_, ?_⟩, ?_, ?_⟩
  · exact updatePheromones_pos size rho q ants st.pheromones hrho (le_of_lt hq)
      hcost hinv.1
  · exact le_of_lt (updateBestPath_pos ants st.bestPath st.bestCost hcost hinv.2 (Or.inr hne))
  · intro hpos
    exact (updateBestPath_mono ants st.bestPath st.bestCost hcost hpos).1
  · exact updateBestPath_pos ants st.bestPath st.bestCost hcost hinv.2 (Or.inr hne)

lemma clamp_pos (tauMax tauMin x : ℚ) (hmin : 0 < tauMin) (hmm : tauMin ≤ tauMax)
    (hx : 0 < x) : 0 < clamp tauMax tauMin x := by
  unfold clamp
  by_cases h1 : x > tauMax
  · rw [if_pos h1]
    linarith
  · rw [if_neg h1]
    by_cases h2 : x < tauMin
    · rw [if_pos h2]
      exact hmin
    · rw [if_neg h2]
      exact hx

lemma mmasUpdatePheromones_pos (size : Nat) (rho q tauMax tauMin : ℚ)
    (bestPath : List Nat) (bestCost : ℚ) (p : Mat)
    (hrho : rho < 1) (hq : 0 ≤ q) (hbc : 0 ≤ bestCost)
    (hmin : 0 < tauMin) (hmm : tauMin ≤ tauMax)
    (hp : ∀ i j, i < size → j < size → 0 < p i j) :
    ∀ i j, i < size → j < size →
      0 < mmasUpdatePheromones size rho q tauMax tauMin bestPath bestCost p i j := by
  intro i j hi hj
  unfold mmasUpdatePheromones scalePheromones
  rw [if_pos ⟨hi, hj⟩, depositEdges_apply, evaporate, if_pos ⟨hi, hj⟩]
  apply clamp_pos tauMax tauMin _ hmin hmm
  have h1 : 0 < (1 - rho) * p i j := mul_pos (by linarith) (hp i j hi hj)
  have h2 : 0 ≤ (q / bestCost) * ((tourEdges size bestPath).count (i, j) : ℚ) :=
    mul_nonneg (div_nonneg hq hbc) (Nat.cast_nonneg _)
  linarith

lemma mmasGenStep_ok (rpow : ℚ → ℚ → ℚ) (g : Mat) (alfa beta rho q tauMax tauMin : ℚ)
    (size m : Nat) (starts : Nat → Nat → Nat) (draws : Nat → Nat → Nat → ℚ)
    (hsz : 0 < size) (hm : 0 < m)
    (hg : ∀ i j, i < size → j < size → 0 < g i j)
    (hrho : rho < 1) (hq : 0 < q)
    (hmin : 0 < tauMin) (hmm : tauMin ≤ tauMax)
    (hpow : ∀ x e, 0 < x → 0 < rpow x e)
    (hstarts : ∀ gen a, starts gen a < size)
    (hdraws : ∀ gen a i, 0 < draws gen a i ∧ draws gen a i < 1) :
    ∀ gi st, InvP size st →
    ∃ st2, mmasGenStep rpow g (weightsMMAS g tauMax) alfa beta rho q tauMax tauMin
        size m starts draws gi st = some st2 ∧
      InvP size st2 ∧ (0 < st.bestCost → st2.bestCost ≤ st.bestCost) ∧ 0 < st2.bestCost := by
  intro gi st hinv
  have htm : 0 < tauMax := lt_of_lt_of_le hmin hmm
  have hw : ∀ i j, i < size → j < size → 0 < weightsMMAS g tauMax i j := by
    intro i j hi hj
    exact div_pos htm (hg i j hi hj)
  obtain ⟨ants, hants, hlen, hcost⟩ := constructAS_ok rpow g st.pheromones
    (weightsMMAS g tauMax) alfa beta size m gi starts draws hsz hg hpow hinv.1 hw
    hstarts hdraws
  have hne : ants ≠ [] := by
    intro h
    rw [h] at hlen
    simp at hlen
    omega
  have hb2 : 0 < (updateBestPath ants st.bestPath st.bestCost).2 :=
    updateBestPath_pos ants st.bestPath st.bestCost hcost hinv.2 (Or.inr hne)
  have hstep : mmasGenStep rpow g (weightsMMAS g tauMax) alfa beta rho q tauMax tauMin
      size m starts draws gi st =
      some ⟨mmasUpdatePheromones size rho q tauMax tauMin
          (updateBestPath ants st.bestPath st.bestCost).1
          (updateBestPath ants st.bestPath st.bestCost).2 st.pheromones,
        (updateBestPath ants st.bestPath st.bestCost).1,
        (updateBestPath ants st.bestPath st.bestCost).2⟩ := by
    show (match constructAntSolutions rpow g st.pheromones (weightsMMAS g tauMax)
        alfa beta size m gi starts draws with
      | none => none
      | some ants => some (⟨mmasUpdatePheromones size rho q tauMax tauMin
          (updateBestPath ants st.bestPath st.bestCost).1
          (updateBestPath ants st.bestPath st.bestCost).2 st.pheromones,
        (updateBestPath ants st.bestPath st.bestCost).1,
        (updateBestPath ants st.bestPath st.bestCost).2⟩ : ColonyState)) = _
    rw [hants]
  refine ⟨_, hstep, ⟨?_, le_of_lt hb2⟩, ?_, hb2⟩
  · exact mmasUpdatePheromones_pos size rho q tauMax tauMin _ _ st.pheromones hrho
      (le_of_lt hq) (le_of_lt hb2) hmin hmm hinv.1
  · intro hpos
    exact (updateBestPath_mono ants st.bestPath st.bestCost hcost hpos).1

lemma getD_set_self (l : List ℚ) (i : Nat) (x : ℚ) (h : i < l.length) :
    (l.set i x).getD i 0 = x := by
  rw [List.getD_eq_getElem _ 0 (by rw [List.length_set]; exact h)]
  exact List.getElem_set_self _

lemma getD_set_other (l : List ℚ) (i j : Nat) (x : ℚ) (h : i ≠ j) :
    (l.set i x).getD j 0 = l.getD j 0 := by
  by_cases hj : j < l.length
  · rw [List.getD_eq_getElem _ 0 (by rw [List.length_set]; exact hj),
      List.getD_eq_getElem _ 0 hj]
    exact List.getElem_set_ne h _
  · rw [List.getD_eq_default _ _ (by rw [List.length_set]; omega),
      List.getD_eq_default _ _ (by omega)]

lemma foldl_max_le (l : List ℚ) : ∀ a : ℚ, a ≤ l.foldl max a := by
  induction l with
  | nil => exact fun a => le_refl a
  | cons x t ih =>
    intro a
    calc a ≤ max a x := le_max_left a x
      _ ≤ t.foldl max (max a x) := ih (max a x)

/-- Structural facts about the exploitPheromones loop: the slice keeps its
length and nonnegative entries, and the returned newSum is either still 0 or
bounded by pMax with a pMax entry present in the final slice. -/
lemma exploitGo_facts (q0 pMax sum : ℚ) (rnd : Nat → ℚ)
    (hpm : 0 ≤ pMax) (hsum : 0 < sum) :
    ∀ (idx : List Nat) (st : List ℚ × ℚ),
    idx.Nodup → (∀ i ∈ idx, i < st.1.length) → (∀ x ∈ st.1, 0 ≤ x) →
    (st.2 = 0 ∨ ∃ i2, i2 ∉ idx ∧ st.1.getD i2 0 = pMax ∧ st.2 ≤ pMax) →
    (exploitGo q0 pMax sum rnd idx st).1.length = st.1.length ∧
    (∀ x ∈ (exploitGo q0 pMax sum rnd idx st).1, 0 ≤ x) ∧
    ((exploitGo q0 pMax sum rnd idx st).2 = 0 ∨
      ∃ i2, (exploitGo q0 pMax sum rnd idx st).1.getD i2 0 = pMax ∧
        (exploitGo q0 pMax sum rnd idx st).2 ≤ pMax) := by
  intro idx
  induction idx with
  | nil =>
    intro st _ _ hnn hinv
    refine ⟨rfl, hnn, ?_⟩
    rcases hinv with h | ⟨i2, _, h2, h3⟩
    · exact Or.inl h
    · exact Or.inr ⟨i2, h2, h3⟩
  | cons i rest ih =>
    intro st hnd hbound hnn hinv
    have hilen : i < st.1.length := hbound i (List.mem_cons_self i rest)
    have hndr : rest.Nodup := (List.nodup_cons.mp hnd).2
    have hinr : i ∉ rest := (List.nodup_cons.mp hnd).1
    have hboundr : ∀ i2 ∈ rest, i2 < st.1.length :=
      fun i2 h2 => hbound i2 (List.mem_cons_of_mem i h2)
    by_cases hq : rnd i < q0
    · have hstep : exploitGo q0 pMax sum rnd (i :: rest) st =
          exploitGo q0 pMax sum rnd rest
            (st.1.set i pMax, pMax - st.1.getD i 0 / sum) := by
        show (if rnd i < q0 then _ else _) = _
        rw [if_pos hq]
      rw [hstep]
      have hnn2 : ∀ x ∈ st.1.set i pMax, 0 ≤ x := by
        intro x hx
        rcases List.mem_or_eq_of_mem_set hx with h | h
        · exact hnn x h
        · exact h ▸ hpm
      have hv : 0 ≤ st.1.getD i 0 / sum :=
        div_nonneg (getD_nonneg st.1 hnn i) (le_of_lt hsum)
      have hinv2 : pMax - st.1.getD i 0 / sum = 0 ∨
          ∃ i2, i2 ∉ rest ∧ (st.1.set i pMax).getD i2 0 = pMax ∧
            pMax - st.1.getD i 0 / sum ≤ pMax :=
        Or.inr ⟨i, hinr, getD_set_self st.1 i pMax hilen, by linarith⟩
      have hres := ih (st.1.set i pMax, pMax - st.1.getD i 0 / sum) hndr
        (by rw [List.length_set]; exact hboundr) hnn2 hinv2
      refine ⟨?_, hres.2.1, hres.2.2⟩
      rw [hres.1, List.length_set]
    · have hstep : exploitGo q0 pMax sum rnd (i :: rest) st =
          exploitGo q0 pMax sum rnd rest
            (st.1.set i (st.1.getD i 0 / sum), st.2) := by
        show (if rnd i < q0 then _ else _) = _
        rw [if_neg hq]
      rw [hstep]
      have hv : 0 ≤ st.1.getD i 0 / sum :=
        div_nonneg (getD_nonneg st.1 hnn i) (le_of_lt hsum)
      have hnn2 : ∀ x ∈ st.1.set i (st.1.getD i 0 / sum), 0 ≤ x := by
        intro x hx
        rcases List.mem_or_eq_of_mem_set hx with h | h
        · exact hnn x h
        · exact h ▸ hv
      have hinv2 : st.2 = 0 ∨
          ∃ i2, i2 ∉ rest ∧ (st.1.set i (st.1.getD i 0 / sum)).getD i2 0 = pMax ∧
            st.2 ≤ pMax := by
        rcases hinv with h | ⟨i2, hi2, h2, h3⟩
        · exact Or.inl h
        · have hne : i ≠ i2 := by
            intro hc
            exact hi2 (hc ▸ List.mem_cons_self i rest)
          refine Or.inr ⟨i2, fun hc => hi2 (List.mem_cons_of_mem i hc), ?_, h3⟩
          rw [getD_set_other st.1 i i2 _ hne]
          exact h2
      have hres := ih (st.1.set i (st.1.getD i 0 / sum), st.2) hndr
        (by rw [List.length_set]; exact hboundr) hnn2 hinv2
      refine ⟨?_, hres.2.1, hres.2.2⟩
      rw [hres.1, List.length_set]

lemma chooseProbs_sum_pos (rpow : ℚ → ℚ → ℚ) (alfa beta : ℚ) (size : Nat)
    (pher w : Mat) (a : AntState)
    (hpow : ∀ x e, 0 < x → 0 < rpow x e)
    (hpher : ∀ i j, i < size → j < size → 0 < pher i j)
    (hw : ∀ i j, i < size → j < size → 0 < w i j)
    (hprev : a.path.getLastD 0 < size)
    (hunvis : ∃ jj, jj < size ∧ a.visited jj = false) :
    0 < (chooseProbs rpow alfa beta size pher w a).sum := by
  obtain ⟨jj, hjj, hjv⟩ := hunvis
  have hnn : ∀ p ∈ chooseProbs rpow alfa beta size pher w a, 0 ≤ p :=
    chooseProbs_nonneg rpow alfa beta size pher w a hpow hpher hw hprev
  have hjlen : jj < (chooseProbs rpow alfa beta size pher w a).length := by
    rw [chooseProbs_length]; exact hjj
  have hjpos : 0 < (chooseProbs rpow alfa beta size pher w a).getD jj 0 := by
    rw [chooseProbs_getD rpow alfa beta size pher w a jj hjj, hjv]
    show (0:ℚ) < if False then 0 else _
    rw [if_neg (fun h => h)]
    exact mul_pos (hpow _ alfa (hpher _ _ hprev hjj)) (hpow _ beta (hw _ _ hprev hjj))
  have hle : (chooseProbs rpow alfa beta size pher w a).getD jj 0 ≤
      (chooseProbs rpow alfa beta size pher w a).sum := by
    rw [List.getD_eq_getElem _ 0 hjlen]
    exact List.single_le_sum hnn _ (List.getElem_mem hjlen)
  linarith

/-- Whatever exploitPheromones does to the weights, the Ant Colony System
chooseNode still returns an index below size whenever the current pheromone
and weight entries are positive in range and an unvisited node exists; the
chosen node may be a visited one. -/
lemma acsChooseNode_some (rpow : ℚ → ℚ → ℚ) (alfa beta q0 : ℚ) (size : Nat)
    (pher w : Mat) (a : AntState) (rndE : Nat → ℚ) (rU : ℚ)
    (hpow : ∀ x e, 0 < x → 0 < rpow x e)
    (hpher : ∀ i j, i < size → j < size → 0 < pher i j)
    (hw : ∀ i j, i < size → j < size → 0 < w i j)
    (hne : a.path ≠ []) (hmem : ∀ x ∈ a.path, x < size)
    (hunvis : ∃ jj, jj < size ∧ a.visited jj = false)
    (hrU0 : 0 ≤ rU) (hrU1 : rU < 1) :
    ∃ k, acsChooseNode rpow alfa beta q0 size pher w a rndE rU = some k ∧ k < size := by
  set probs := chooseProbs rpow alfa beta size pher w a with hprobs
  have hprev : a.path.getLastD 0 < size := hmem _ (getLastD_mem a.path hne)
  have hnn : ∀ p ∈ probs, 0 ≤ p :=
    chooseProbs_nonneg rpow alfa beta size pher w a hpow hpher hw hprev
  have hsum : 0 < probs.sum :=
    chooseProbs_sum_pos rpow alfa beta size pher w a hpow hpher hw hprev hunvis
  have hpm : 0 ≤ probs.foldl max 0 := foldl_max_le probs 0
  have hfacts := exploitGo_facts q0 (probs.foldl max 0) probs.sum rndE hpm hsum
    (List.range probs.length) (probs, 0) (List.nodup_range _)
    (fun i hi => List.mem_range.mp hi) hnn (Or.inl rfl)
  set res := exploitGo q0 (probs.foldl max 0) probs.sum rndE (List.range probs.length)
    (probs, 0) with hres
  have hlen : res.1.length = size := by
    rw [hfacts.1]
    show probs.length = size
    rw [hprobs, chooseProbs_length]
  have hsz : 0 < size := by
    obtain ⟨jj, hjj, _⟩ := hunvis
    omega
  have hneL : res.1 ≠ [] := by
    intro h
    rw [h] at hlen
    simp at hlen
    omega
  have hnn2 : ∀ x ∈ res.1, 0 ≤ x := hfacts.2.1
  have hu : res.2 * rU ≤ res.1.sum := by
    rcases le_or_lt res.2 0 with h | h
    · have h1 : res.2 * rU ≤ 0 := mul_nonpos_iff.mpr (Or.inr ⟨h, hrU0⟩)
      exact le_trans h1 (List.sum_nonneg hnn2)
    · rcases hfacts.2.2 with h0 | ⟨i2, hgd, hle⟩
      · rw [h0] at h
        exact absurd h (lt_irrefl 0)
      · have hi2len : i2 < res.1.length := by
          by_contra hc
          rw [List.getD_eq_default _ _ (le_of_not_lt hc)] at hgd
          rw [← hgd] at hle
          linarith
        have hpmsum : res.1.getD i2 0 ≤ res.1.sum := by
          rw [List.getD_eq_getElem _ 0 hi2len]
          exact List.single_le_sum hnn2 _ (List.getElem_mem hi2len)
        have h1 : res.2 * rU < res.2 := mul_lt_of_lt_one_right h hrU1
        rw [hgd] at hpmsum
        linarith
  obtain ⟨k, hk, hklen, _, _⟩ := simulateChoiceU_spec res.1 (res.2 * rU) hneL hnn2 hu
  refine ⟨k, ?_, by omega⟩
  show simulateChoice
      (exploitPheromones q0 (probs.foldl max 0) probs.sum rndE probs).1
      (exploitPheromones q0 (probs.foldl max 0) probs.sum rndE probs).2 rU = some k
  show simulateChoiceU
      (exploitPheromones q0 (probs.foldl max 0) probs.sum rndE probs).1
      ((exploitPheromones q0 (probs.foldl max 0) probs.sum rndE probs).2 * rU) = some k
  exact hk

/-- The Ant Colony System tour loop always completes with an in-range path of
exactly size nodes (possibly with repeats, given the exploitPheromones
behaviour) and the accumulated edge cost. -/
lemma acsAntSimLoop_ok (rpow : ℚ → ℚ → ℚ) (g pher w : Mat) (alfa beta q0 : ℚ)
    (size : Nat) (rsE : Nat → Nat → ℚ) (rsU : Nat → ℚ)
    (hpow : ∀ x e, 0 < x → 0 < rpow x e)
    (hpher : ∀ i j, i < size → j < size → 0 < pher i j)
    (hw : ∀ i j, i < size → j < size → 0 < w i j)
    (hrU : ∀ i, 0 ≤ rsU i ∧ rsU i < 1) :
    ∀ fuel i a, a.path.length + fuel = size → a.path ≠ [] →
      (∀ x ∈ a.path, x < size) → (∀ j, a.visited j = true ↔ j ∈ a.path) →
      a.cost = pathCost g a.path →
    ∃ b, acsAntSimLoop rpow g pher w alfa beta q0 size rsE rsU fuel i a = some b ∧
      b.path.length = size ∧ (∀ x ∈ b.path, x < size) ∧ b.path ≠ [] ∧
      b.cost = pathCost g b.path + g (b.path.getLastD 0) (b.path.headD 0) := by
  intro fuel
  induction fuel with
  | zero =>
    intro i a hlen hne hmem hiff hcost
    refine ⟨_, rfl, ?_, hmem, hne, ?_⟩
    · show a.path.length = size
      omega
    · show a.cost + g (a.path.getLastD 0) (a.path.headD 0) = _
      rw [hcost]
  | succ fuel ih =>
    intro i a hlen hne hmem hiff hcost
    have hplt : a.path.length < size := by omega
    have hunvis := exists_unvisited size a hmem hplt hiff
    obtain ⟨nxt, hch, hnxt⟩ := acsChooseNode_some rpow alfa beta q0 size pher w a
      (rsE i) (rsU i) hpow hpher hw hne hmem hunvis (hrU i).1 (hrU i).2
    have hstep : acsAntSimLoop rpow g pher w alfa beta q0 size rsE rsU (fuel + 1) i a =
        acsAntSimLoop rpow g pher w alfa beta q0 size rsE rsU fuel (i + 1)
          (stepAnt g a nxt) := by
      rw [acsAntSimLoop, hch]
    rw [hstep]
    apply ih (i + 1) (stepAnt g a nxt)
    · show (a.path ++ [nxt]).length + fuel = size
      rw [List.length_append]
      simp only [List.length_singleton]
      omega
    · show a.path ++ [nxt] ≠ []
      simp
    · intro x hx
      rcases List.mem_append.mp hx with h | h
      · exact hmem x h
      · rw [List.mem_singleton] at h
        exact h ▸ hnxt
    · intro j
      show (if j = nxt then true else a.visited j) = true ↔ j ∈ a.path ++ [nxt]
      by_cases hj : j = nxt
      · rw [if_pos hj, hj]
        simp
      · rw [if_neg hj, hiff j]
        constructor
        · exact fun h => List.mem_append.mpr (Or.inl h)
        · intro h
          rcases List.mem_append.mp h with h | h
          · exact h
          · rw [List.mem_singleton] at h
            exact absurd h hj
    · show a.cost + g (a.path.getLastD 0) nxt = pathCost g (a.path ++ [nxt])
      rw [pathCost_concat g a.path nxt hne, hcost]

lemma acsAntSimulation_cost_pos (rpow : ℚ → ℚ → ℚ) (g pher w : Mat)
    (alfa beta q0 : ℚ) (size start : Nat) (rsE : Nat → Nat → ℚ) (rsU : Nat → ℚ)
    (hsz : 0 < size) (hstart : start < size)
    (hg : ∀ i j, i < size → j < size → 0 < g i j)
    (hpow : ∀ x e, 0 < x → 0 < rpow x e)
    (hpher : ∀ i j, i < size → j < size → 0 < pher i j)
    (hw : ∀ i j, i < size → j < size → 0 < w i j)
    (hrU : ∀ i, 0 ≤ rsU i ∧ rsU i < 1) :
    ∃ b, acsAntSimulation rpow g pher w alfa beta q0 size start rsE rsU = some b ∧
      0 < b.cost := by
  obtain ⟨b, hb, _, hmem, hne2, hcost⟩ :=
    acsAntSimLoop_ok rpow g pher w alfa beta q0 size rsE rsU hpow hpher hw hrU
      (size - 1) 0 (visitNode ⟨0, [], fun _ => false⟩ start)
      (by
        show ([] ++ [start] : List Nat).length + (size - 1) = size
        simp
        omega)
      (by show ([] ++ [start] : List Nat) ≠ []; simp)
      (by
        intro x hx
        have : x ∈ ([start] : List Nat) := hx
        rw [List.mem_singleton] at this
        exact this ▸ hstart)
      (by
        intro j
        show (if j = start then true else false) = true ↔ j ∈ ([] ++ [start] : List Nat)
        by_cases hj : j = start
        · rw [if_pos hj, hj]
          simp
        · rw [if_neg hj]
          simp [hj])
      (by show (0:ℚ) = pathCost g ([] ++ [start]); rfl)
  refine ⟨b, hb, ?_⟩
  rw [hcost]
  have hclose : 0 < g (b.path.getLastD 0) (b.path.headD 0) :=
    hg _ _ (hmem _ (getLastD_mem b.path hne2)) (hmem _ (headD_mem b.path hne2))
  have hpc : 0 ≤ pathCost g b.path := pathCost_nonneg g size hg b.path hmem
  linarith

/-- The Ant Colony System local update keeps in-range pheromone entries
positive when 0 < phi ≤ 1 and tau0 > 0. -/
lemma mixFold_pos (size : Nat) (phi tau0 : ℚ) (hphi : 0 < phi) (hphi1 : phi ≤ 1)
    (htau : 0 < tau0) :
    ∀ (es : List (Nat × Nat)) (p : Mat),
      (∀ i j, i < size → j < size → 0 < p i j) →
      ∀ i j, i < size → j < size →
        0 < es.foldl (fun acc e => mixAt acc e.1 e.2 phi tau0) p i j := by
  intro es
  induction es with
  | nil => exact fun p hp => hp
  | cons e t ih =>
    intro p hp
    have hstep : (e :: t).foldl (fun acc x => mixAt acc x.1 x.2 phi tau0) p =
        t.foldl (fun acc x => mixAt acc x.1 x.2 phi tau0) (mixAt p e.1 e.2 phi tau0) := rfl
    rw [hstep]
    apply ih
    intro i j hi hj
    unfold mixAt
    by_cases h : i = e.1 ∧ j = e.2
    · rw [if_pos h]
      have h1 : 0 ≤ (1 - phi) * p i j :=
        mul_nonneg (by linarith) (le_of_lt (hp i j hi hj))
      have h2 : 0 < phi * tau0 := mul_pos hphi htau
      linarith
    · rw [if_neg h]
      exact hp i j hi hj

lemma acsConstruct_ok (rpow : ℚ → ℚ → ℚ) (g w : Mat) (alfa beta q0 phi tau0 : ℚ)
    (size : Nat) (startOf : Nat → Nat) (rsEOf : Nat → Nat → Nat → ℚ)
    (rsUOf : Nat → Nat → ℚ)
    (hsz : 0 < size)
    (hg : ∀ i j, i < size → j < size → 0 < g i j)
    (hpow : ∀ x e, 0 < x → 0 < rpow x e)
    (hw : ∀ i j, i < size → j < size → 0 < w i j)
    (hphi : 0 < phi) (hphi1 : phi ≤ 1) (htau : 0 < tau0)
    (hstarts : ∀ a, startOf a < size)
    (hrU : ∀ a i, 0 ≤ rsUOf a i ∧ rsUOf a i < 1) :
    ∀ (idx : List Nat) (pher : Mat),
      (∀ i j, i < size → j < size → 0 < pher i j) →
    ∃ pr, acsConstruct rpow g w alfa beta q0 phi tau0 size startOf rsEOf rsUOf idx pher =
        some pr ∧
      (∀ i j, i < size → j < size → 0 < pr.1 i j) ∧
      pr.2.length = idx.length ∧ ∀ b ∈ pr.2, 0 < b.cost := by
  intro idx
  induction idx with
  | nil =>
    intro pher hp
    exact ⟨(pher, []), rfl, hp, rfl, fun b hb => absurd hb (List.not_mem_nil b)⟩
  | cons a rest ih =>
    intro pher hp
    obtain ⟨b, hb, hbc⟩ := acsAntSimulation_cost_pos rpow g pher w alfa beta q0 size
      (startOf a) (rsEOf a) (rsUOf a) hsz (hstarts a) hg hpow hp hw (hrU a)
    have hp2 : ∀ i j, i < size → j < size →
        0 < localUpdatePheromone size phi tau0 b.path pher i j :=
      mixFold_pos size phi tau0 hphi hphi1 htau (tourEdges size b.path) pher hp
    obtain ⟨pr, hpr, hprp, hprlen, hprc⟩ :=
      ih (localUpdatePheromone size phi tau0 b.path pher) hp2
    refine ⟨(pr.1, b :: pr.2), ?_, hprp, by simp [hprlen], ?_⟩
    · show (match acsAntSimulation rpow g pher w alfa beta q0 size (startOf a)
          (rsEOf a) (rsUOf a) with
        | none => none
        | some b =>
          match acsConstruct rpow g w alfa beta q0 phi tau0 size startOf rsEOf rsUOf
              rest (localUpdatePheromone size phi tau0 b.path pher) with
          | none => none
          | some pr => some (pr.1, b :: pr.2)) = some (pr.1, b :: pr.2)
      rw [hb]
      show (match acsConstruct rpow g w alfa beta q0 phi tau0 size startOf rsEOf rsUOf
          rest (localUpdatePheromone size phi tau0 b.path pher) with
        | none => none
        | some pr => some (pr.1, b :: pr.2)) = some (pr.1, b :: pr.2)
      rw [hpr]
    · intro x hx
      rcases List.mem_cons.mp hx with h | h
      · exact h ▸ hbc
      · exact hprc x h

lemma acsUpdatePheromones_pos (size : Nat) (rho q : ℚ) (bestPath : List Nat)
    (bestCost : ℚ) (p : Mat)
    (hrho : rho < 1) (hq : 0 ≤ q) (hbc : 0 ≤ bestCost)
    (hp : ∀ i j, i < size → j < size → 0 < p i j) :
    ∀ i j, i < size → j < size →
      0 < acsUpdatePheromones size rho q bestPath bestCost p i j := by
  intro i j hi hj
  unfold acsUpdatePheromones
  rw [depositEdges_apply, evaporate, if_pos ⟨hi, hj⟩]
  have h1 : 0 < (1 - rho) * p i j := mul_pos (by linarith) (hp i j hi hj)
  have h2 : 0 ≤ (q / bestCost) * ((tourEdges size bestPath).count (i, j) : ℚ) :=
    mul_nonneg (div_nonneg hq hbc) (Nat.cast_nonneg _)
  linarith

lemma acsGenStep_ok (rpow : ℚ → ℚ → ℚ) (g : Mat) (alfa beta rho q tau0 phi q0 : ℚ)
    (size m : Nat) (starts : Nat → Nat → Nat) (drawsE : Nat → Nat → Nat → Nat → ℚ)
    (drawsU : Nat → Nat → Nat → ℚ)
    (hsz : 0 < size) (hm : 0 < m)
    (hg : ∀ i j, i < size → j < size → 0 < g i j)
    (hrho : rho < 1) (hq : 0 < q)
    (hphi : 0 < phi) (hphi1 : phi ≤ 1) (htau : 0 < tau0)
    (hpow : ∀ x e, 0 < x → 0 < rpow x e)
    (hstarts : ∀ gen a, starts gen a < size)
    (hdrawsU : ∀ gen a i, 0 ≤ drawsU gen a i ∧ drawsU gen a i < 1) :
    ∀ gi st, InvP size st →
    ∃ st2, acsGenStep rpow g (weightsACS g tau0) alfa beta rho q tau0 phi q0
        size m starts drawsE drawsU gi st = some st2 ∧
      InvP size st2 ∧ (0 < st.bestCost → st2.bestCost ≤ st.bestCost) ∧ 0 < st2.bestCost := by
  intro gi st hinv
  have hw : ∀ i j, i < size → j < size → 0 < weightsACS g tau0 i j := by
    intro i j hi hj
    exact div_pos htau (hg i j hi hj)
  obtain ⟨pr, hpr, hprp, hprlen, hprc⟩ := acsConstruct_ok rpow g (weightsACS g tau0)
    alfa beta q0 phi tau0 size (starts gi) (drawsE gi) (drawsU gi) hsz hg hpow hw
    hphi hphi1 htau (hstarts gi) (hdrawsU gi) (List.range m) st.pheromones hinv.1
  have hne : pr.2 ≠ [] := by
    intro h
    rw [h] at hprlen
    simp at hprlen
    omega
  have hb2 : 0 < (updateBestPath pr.2 st.bestPath st.bestCost).2 :=
    updateBestPath_pos pr.2 st.bestPath st.bestCost hprc hinv.2 (Or.inr hne)
  have hstep : acsGenStep rpow g (weightsACS g tau0) alfa beta rho q tau0 phi q0
      size m starts drawsE drawsU gi st =
      some ⟨acsUpdatePheromones size rho q
          (updateBestPath pr.2 st.bestPath st.bestCost).1
          (updateBestPath pr.2 st.bestPath st.bestCost).2 pr.1,
        (updateBestPath pr.2 st.bestPath st.bestCost).1,
        (updateBestPath pr.2 st.bestPath st.bestCost).2⟩ := by
    show (match acsConstruct rpow g (weightsACS g tau0) alfa beta q0 phi tau0 size
        (starts gi) (drawsE gi) (drawsU gi) (List.range m) st.pheromones with
      | none => none
      | some pr =>
        some (⟨acsUpdatePheromones size rho q
            (updateBestPath pr.2 st.bestPath st.bestCost).1
            (updateBestPath pr.2 st.bestPath st.bestCost).2 pr.1,
          (updateBestPath pr.2 st.bestPath st.bestCost).1,
          (updateBestPath pr.2 st.bestPath st.bestCost).2⟩ : ColonyState)) = _
    rw [hpr]
  refine ⟨_, hstep, ⟨?_, le_of_lt hb2⟩, ?_, hb2⟩
  · exact acsUpdatePheromones_pos size rho q _ _ pr.1 hrho (le_of_lt hq)
      (le_of_lt hb2) hprp
  · intro hpos
    exact (updateBestPath_mono pr.2 st.bestPath st.bestCost hprc hpos).1

/-- Claim C1: updateBestPath overwrites the stored best path and cost only
when an ant's tour cost is strictly smaller than the current best, or when
the current best cost still holds the initial sentinel 0 (first conjunct:
with positive ant costs the result never exceeds a positive current best and
stays positive; nothing changes when no ant is strictly better; from the
sentinel it becomes positive).  Consequently, for the generation loop of each
of the three solve entrypoints (SolveATSP/SolveAS, SolveMMAS, SolveACS) under
a valid configuration with strictly positive edge costs — hence strictly
positive tour costs — the global best cost is monotonically non-increasing
across generations from the first generation on. -/
theorem bestCost_monotone :
    (∀ (ants : List AntState) (bp : List Nat) (bc : ℚ),
      (∀ a ∈ ants, 0 < a.cost) →
      ((0 < bc → (updateBestPath ants bp bc).2 ≤ bc ∧ 0 < (updateBestPath ants bp bc).2) ∧
       (0 < bc → (∀ a ∈ ants, bc ≤ a.cost) → updateBestPath ants bp bc = (bp, bc)) ∧
       (bc = 0 → ants ≠ [] → 0 < (updateBestPath ants bp bc).2))) ∧
    (∀ (rpow : ℚ → ℚ → ℚ) (g : Mat) (alfa beta rho q : ℚ) (size m : Nat)
      (starts : Nat → Nat → Nat) (draws : Nat → Nat → Nat → ℚ),
      0 < size → 0 < m →
      (∀ i j, i < size → j < size → 0 < g i j) →
      rho < 1 → 0 < q →
      (∀ x e, 0 < x → 0 < rpow x e) →
      (∀ gen a, starts gen a < size) →
      (∀ gen a i, 0 < draws gen a i ∧ draws gen a i < 1) →
      monotoneFromFirstGen
        (asGenStep rpow g (weightsAS g) alfa beta rho q size m starts draws)
        (initColonyAS size)) ∧
    (∀ (rpow : ℚ → ℚ → ℚ) (g : Mat) (alfa beta rho q tauMax tauMin : ℚ)
      (size m : Nat) (starts : Nat → Nat → Nat) (draws : Nat → Nat → Nat → ℚ),
      0 < size → 0 < m →
      (∀ i j, i < size → j < size → 0 < g i j) →
      rho < 1 → 0 < q → 0 < tauMin → tauMin ≤ tauMax →
      (∀ x e, 0 < x → 0 < rpow x e) →
      (∀ gen a, starts gen a < size) →
      (∀ gen a i, 0 < draws gen a i ∧ draws gen a i < 1) →
      monotoneFromFirstGen
        (mmasGenStep rpow g (weightsMMAS g tauMax) alfa beta rho q tauMax tauMin
          size m starts draws)
        (initColonyMMAS size tauMax)) ∧
    (∀ (rpow : ℚ → ℚ → ℚ) (g : Mat) (alfa beta rho q tau0 phi q0 : ℚ)
      (size m : Nat) (starts : Nat → Nat → Nat)
      (drawsE : Nat → Nat → Nat → Nat → ℚ) (drawsU : Nat → Nat → Nat → ℚ),
      0 < size → 0 < m →
      (∀ i j, i < size → j < size → 0 < g i j) →
      rho < 1 → 0 < q → 0 < phi → phi ≤ 1 → 0 < tau0 →
      (∀ x e, 0 < x → 0 < rpow x e) →
      (∀ gen a, starts gen a < size) →
      (∀ gen a i, 0 ≤ drawsU gen a i ∧ drawsU gen a i < 1) →
      monotoneFromFirstGen
        (acsGenStep rpow g (weightsACS g tau0) alfa beta rho q tau0 phi q0
          size m starts drawsE drawsU)
        (initColonyACS size tau0)) := by
  refine ⟨?_, ?_, ?_, ?_⟩
  · intro ants bp bc hpos
    refine ⟨fun hbc => updateBestPath_mono ants bp bc hpos hbc,
      fun hbc hle => updateBestPath_unchanged ants bp bc hbc hle,
      fun hbc hne => ?_⟩
    rw [hbc]
    exact updateBestPath_pos_of_sentinel ants hne bp hpos
  · intro rpow g alfa beta rho q size m starts draws hsz hm hg hrho hq hpow hstarts hdraws
    exact monotone_of_genStep _ _ (InvP size)
      ⟨fun i j _ _ => one_pos, le_refl 0⟩
      (asGenStep_ok rpow g alfa beta rho q size m starts draws hsz hm hg hrho hq
        hpow hstarts hdraws)
  · intro rpow g alfa beta rho q tauMax tauMin size m starts draws hsz hm hg hrho hq
      hmin hmm hpow hstarts hdraws
    exact monotone_of_genStep _ _ (InvP size)
      ⟨fun i j _ _ => lt_of_lt_of_le hmin hmm, le_refl 0⟩
      (mmasGenStep_ok rpow g alfa beta rho q tauMax tauMin size m starts draws hsz hm
        hg hrho hq hmin hmm hpow hstarts hdraws)
  · intro rpow g alfa beta rho q tau0 phi q0 size m starts drawsE drawsU hsz hm hg
      hrho hq hphi hphi1 htau hpow hstarts hdrawsU
    exact monotone_of_genStep _ _ (InvP size)
      ⟨fun i j _ _ => htau, le_refl 0⟩
      (acsGenStep_ok rpow g alfa beta rho q tau0 phi q0 size m starts drawsE drawsU
        hsz hm hg hrho hq hphi hphi1 htau hpow hstarts hdrawsU)

/-- Claim C1 witness: the overwrite conditions evaluated on one ant of cost 2
against current best cost 3, and the Ant System monotone-run consequence on a
concrete 2-node configuration. -/
theorem bestCost_monotone_witness :
    ((updateBestPath [⟨2, [0, 1], fun _ => true⟩] [0, 0] 3).2 ≤ 3 ∧
      0 < (updateBestPath [⟨2, [0, 1], fun _ => true⟩] [0, 0] 3).2) ∧
    monotoneFromFirstGen
      (asGenStep (fun x _ => x) (fun _ _ => 1) (weightsAS (fun _ _ => 1)) 1 2 (1/2) 1
        2 1 (fun _ _ => 0) (fun _ _ _ => 1/2))
      (initColonyAS 2) := by
  constructor
  · exact (bestCost_monotone.1 [⟨2, [0, 1], fun _ => true⟩] [0, 0] 3
      (by
        intro a ha
        rw [List.mem_singleton] at ha
        rw [ha]
        exact (show (0:ℚ) < 2 by norm_num))).1 (by norm_num)
  · exact bestCost_monotone.2.1 (fun x _ => x) (fun _ _ => 1) 1 2 (1/2) 1 2 1
      (fun _ _ => 0) (fun _ _ _ => 1/2) (by norm_num) (by norm_num)
      (fun i j _ _ => one_pos) (by norm_num) (by norm_num)
      (fun x e h => h) (fun gen a => by norm_num)
      (fun gen a i => ⟨by norm_num, by norm_num⟩)

end ACO
